import Mathlib

/-!
Verification of the LexiBot RAG core (structural chunker and hybrid
multi-query retrieval engine) against its specification.

The Python sources are shallowly embedded: strings become `List Char`
(one element per code point, so `List.length` coincides with Python
`len`), floats become `ℚ`, Python dicts keyed by text fingerprints
become insertion-ordered association lists, and the two external
similarity backends (the ChromaDB vector index and the BM25 scoring
function) are parameters supplying per-query result lists, exactly the
data the fusion and selection code consumes.
-/

set_option maxRecDepth 4000

namespace LexiBot

open List

abbrev Str := List Char

/-- Python `str.strip()` whitespace test, restricted to the ASCII
whitespace characters (the only ones produced by the PDF cleaning
pipeline). -/
def isWs (c : Char) : Bool :=
  c = ' ' || c = '\t' || c = '\n' || c = '\r' || c = '\x0b' || c = '\x0c'

/-- Python `str.strip()`: drop whitespace from both ends. -/
def strip (l : Str) : Str :=
  ((l.dropWhile isWs).reverse.dropWhile isWs).reverse

theorem strip_length_le (l : Str) : (strip l).length ≤ l.length := by
  have h1 : (l.dropWhile isWs).length ≤ l.length :=
    (List.dropWhile_sublist isWs).length_le
  have h2 : ((l.dropWhile isWs).reverse.dropWhile isWs).length ≤
      (l.dropWhile isWs).reverse.length :=
    (List.dropWhile_sublist isWs).length_le
  simp only [strip, List.length_reverse] at *
  omega

/-- Metadata attached to a chunk.  The Python code stores these in a
dict; every field below is always present on chunks produced by the
chunker, except `sub_chunk`, which the splitter adds with value `True`
and which is absent otherwise — absence is modelled as `false`. -/
structure ChunkMeta where
  titre : Str
  chapitre : Str
  sectionM : Str
  article : Str
  level : String
  page : Nat
  source : Str
  subChunk : Bool
deriving DecidableEq

structure Chunk where
  text : Str
  metadata : ChunkMeta
deriving DecidableEq

/-- A search result as returned by `VectorStore.search`,
`search_bm25`, `search_hybrid` and `search_multi_query`:
a dict with `text`, `metadata` and `score`. -/
structure Res where
  text : Str
  metadata : ChunkMeta
  score : ℚ
deriving DecidableEq

/-- The 200-character dedup fingerprint `r["text"][:200]`. -/
def keyOf (r : Res) : Str := r.text.take 200

/-- The result list `l` has pairwise-distinct values of `f`. -/
def FpNodup (f : Res → Str) (l : List Res) : Prop :=
  l.Pairwise (fun a b => f a ≠ f b)

theorem eq_of_fpNodup (f : Res → Str) :
    ∀ (l : List Res) (a b : Res),
      FpNodup f l → a ∈ l → b ∈ l → f a = f b → a = b := by
  intro l
  induction l with
  | nil => intro a b _ ha _ _; cases ha
  | cons x xs ih =>
    intro a b h ha hb hf
    rcases List.pairwise_cons.mp h with ⟨hx, hxs⟩
    rcases List.mem_cons.mp ha with ha' | ha' <;>
      rcases List.mem_cons.mp hb with hb' | hb'
    · rw [ha', hb']
    · subst ha'; exact absurd hf (hx b hb')
    · subst hb'; exact absurd hf.symm (hx a ha')
    · exact ih a b hxs ha' hb' hf

/-! ### `VectorStore.search_hybrid` (vector_store.py, lines 213-265)

`search` and `search_bm25` depend on the external embedding model and
on the BM25 library; `search_hybrid` consumes their output lists
(requested with `fetch_n = 2 n` headroom upstream).  The fusion and
ranking code is embedded here over those two lists. -/

/-- A semantic result weighted for fusion:
`{"text": ..., "metadata": ..., "score": r["score"] * semantic_weight}`. -/
def semWeighted (w : ℚ) (r : Res) : Res :=
  ⟨r.text, r.metadata, r.score * w⟩

/-- First fusion phase step: `merged[text_key] = {...}` — Python dict
assignment: replace in place if the key exists, else append. -/
def putSem (w : ℚ) : List Res → Res → List Res
  | [], r => [semWeighted w r]
  | x :: xs, r =>
    if keyOf x = keyOf r then semWeighted w r :: xs else x :: putSem w xs r

/-- Second fusion phase step: add `r["score"] * bm25_weight` to an
existing same-key entry, else insert the weighted BM25 result. -/
def addBm (w : ℚ) : List Res → Res → List Res
  | [], r => [⟨r.text, r.metadata, r.score * w⟩]
  | x :: xs, r =>
    if keyOf x = keyOf r then ⟨x.text, x.metadata, x.score + r.score * w⟩ :: xs
    else x :: addBm w xs r

/-- The `merged` dict of `search_hybrid`, as an insertion-ordered list
of its values. -/
def mergeHybrid (semRes bm25Res : List Res) (wS wB : ℚ) : List Res :=
  bm25Res.foldl (addBm wB) (semRes.foldl (putSem wS) [])

/-- Stable insertion (for a stable descending sort by score, matching
Python's stable `sorted(..., reverse=True)`). -/
def insDesc (r : Res) : List Res → List Res
  | [] => [r]
  | x :: xs => if x.score ≤ r.score then r :: x :: xs else x :: insDesc r xs

/-- `sorted(merged.values(), key=lambda x: x["score"], reverse=True)`. -/
def sortDescScore : List Res → List Res
  | [] => []
  | x :: xs => insDesc x (sortDescScore xs)

/-- `VectorStore.search_hybrid`, given the two per-method result lists. -/
def searchHybrid (semRes bm25Res : List Res) (wS wB : ℚ) (n : Nat) : List Res :=
  (sortDescScore (mergeHybrid semRes bm25Res wS wB)).take n

theorem mem_insDesc {y r : Res} {l : List Res} :
    y ∈ insDesc r l ↔ y = r ∨ y ∈ l := by
  induction l with
  | nil => simp [insDesc]
  | cons x xs ih =>
    by_cases h : x.score ≤ r.score
    · simp [insDesc, h]
    · simp only [insDesc, h, if_false, List.mem_cons, ih]
      tauto

theorem insDesc_perm (r : Res) (l : List Res) : insDesc r l ~ r :: l := by
  induction l with
  | nil => rfl
  | cons x xs ih =>
    by_cases h : x.score ≤ r.score
    · simp [insDesc, h]
    · simp only [insDesc, h, if_false]
      exact (ih.cons x).trans (List.Perm.swap r x xs)

theorem sortDescScore_perm (l : List Res) : sortDescScore l ~ l := by
  induction l with
  | nil => rfl
  | cons x xs ih => exact (insDesc_perm x (sortDescScore xs)).trans (ih.cons x)

theorem insDesc_sorted {r : Res} {l : List Res}
    (h : l.Pairwise (fun a b => b.score ≤ a.score)) :
    (insDesc r l).Pairwise (fun a b => b.score ≤ a.score) := by
  induction l with
  | nil => simp [insDesc]
  | cons x xs ih =>
    rcases List.pairwise_cons.mp h with ⟨hx, hxs⟩
    by_cases hc : x.score ≤ r.score
    · simp only [insDesc, hc, if_true]
      refine List.pairwise_cons.mpr ⟨?_, h⟩
      intro b hb
      rcases List.mem_cons.mp hb with hb' | hb'
      · exact hb' ▸ hc
      · exact le_trans (hx b hb') hc
    · simp only [insDesc, hc, if_false]
      refine List.pairwise_cons.mpr ⟨?_, ih hxs⟩
      intro b hb
      rcases mem_insDesc.mp hb with hb | hb
      · exact hb ▸ (le_of_not_le hc)
      · exact hx b hb

theorem sortDescScore_sorted (l : List Res) :
    (sortDescScore l).Pairwise (fun a b => b.score ≤ a.score) := by
  induction l with
  | nil => simp [sortDescScore]
  | cons x xs ih => exact insDesc_sorted ih

theorem keyOf_semWeighted (w : ℚ) (r : Res) :
    keyOf (semWeighted w r) = keyOf r := rfl

theorem putSem_of_disjoint (w : ℚ) :
    ∀ (acc : List Res) (r : Res), (∀ a ∈ acc, keyOf a ≠ keyOf r) →
      putSem w acc r = acc ++ [semWeighted w r] := by
  intro acc
  induction acc with
  | nil => intro r _; rfl
  | cons x xs ih =>
    intro r h
    have hx : keyOf x ≠ keyOf r := h x (List.mem_cons_self x xs)
    simp only [putSem, hx, if_false]
    rw [ih r (fun a ha => h a (List.mem_cons_of_mem x ha))]
    simp

theorem foldl_putSem_eq (w : ℚ) :
    ∀ (l acc : List Res), (∀ a ∈ acc, ∀ r ∈ l, keyOf a ≠ keyOf r) →
      FpNodup keyOf l → l.foldl (putSem w) acc = acc ++ l.map (semWeighted w) := by
  intro l
  induction l with
  | nil => intro acc _ _; simp
  | cons r l' ih =>
    intro acc hdis hnd
    rcases List.pairwise_cons.mp hnd with ⟨hr, hnd'⟩
    simp only [List.foldl_cons]
    rw [putSem_of_disjoint w acc r
      (fun a ha => hdis a ha r (List.mem_cons_self r l'))]
    rw [ih (acc ++ [semWeighted w r]) ?_ hnd']
    · simp
    · intro a ha r' hr'
      rcases List.mem_append.mp ha with h | h
      · exact hdis a h r' (List.mem_cons_of_mem r hr')
      · simp only [List.mem_singleton] at h
        subst h
        rw [keyOf_semWeighted]
        exact hr r' hr'

theorem keyOf_mk_eq (a : Res) (s : ℚ) :
    keyOf ⟨a.text, a.metadata, s⟩ = keyOf a := rfl

theorem mem_addBm_keys (w : ℚ) :
    ∀ (acc : List Res) (b : Res), ∀ y ∈ addBm w acc b,
      keyOf y = keyOf b ∨ ∃ a ∈ acc, keyOf y = keyOf a := by
  intro acc
  induction acc with
  | nil =>
    intro b y hy
    simp only [addBm, List.mem_singleton] at hy
    subst hy
    left; rfl
  | cons x xs ih =>
    intro b y hy
    by_cases hx : keyOf x = keyOf b
    · simp only [addBm, hx, if_true] at hy
      rcases List.mem_cons.mp hy with hy' | hy'
      · subst hy'; right; exact ⟨x, List.mem_cons_self x xs, rfl⟩
      · right; exact ⟨y, List.mem_cons_of_mem x hy', rfl⟩
    · simp only [addBm, hx, if_false] at hy
      rcases List.mem_cons.mp hy with hy' | hy'
      · subst hy'; right; exact ⟨y, List.mem_cons_self y xs, rfl⟩
      · rcases ih b y hy' with h | ⟨a, ha, hk⟩
        · left; exact h
        · right; exact ⟨a, List.mem_cons_of_mem x ha, hk⟩

theorem addBm_keys_nodup (w : ℚ) :
    ∀ (acc : List Res) (b : Res), FpNodup keyOf acc →
      FpNodup keyOf (addBm w acc b) := by
  intro acc
  induction acc with
  | nil => intro b _; simp [addBm, FpNodup]
  | cons x xs ih =>
    intro b h
    rcases List.pairwise_cons.mp h with ⟨hx, hxs⟩
    by_cases hc : keyOf x = keyOf b
    · simp only [addBm, hc, if_true]
      exact List.pairwise_cons.mpr ⟨fun a ha => hx a ha, hxs⟩
    · simp only [addBm, hc, if_false]
      refine List.pairwise_cons.mpr ⟨?_, ih b hxs⟩
      intro y hy
      rcases mem_addBm_keys w xs b y hy with h' | ⟨a, ha, hk⟩
      · rw [h']; exact hc
      · rw [hk]; exact hx a ha

theorem mem_addBm (w : ℚ) :
    ∀ (acc : List Res) (b : Res), FpNodup keyOf acc →
      ∀ x ∈ addBm w acc b,
        (x ∈ acc ∧ keyOf x ≠ keyOf b) ∨
        (∃ a ∈ acc, keyOf a = keyOf b ∧
          x = ⟨a.text, a.metadata, a.score + b.score * w⟩) ∨
        ((∀ a ∈ acc, keyOf a ≠ keyOf b) ∧
          x = ⟨b.text, b.metadata, b.score * w⟩) := by
  intro acc
  induction acc with
  | nil =>
    intro b _ x hx
    simp only [addBm, List.mem_singleton] at hx
    right; right
    exact ⟨fun a ha => absurd ha (List.not_mem_nil a), hx⟩
  | cons x0 xs ih =>
    intro b h x hx
    rcases List.pairwise_cons.mp h with ⟨hx0, hxs⟩
    by_cases hc : keyOf x0 = keyOf b
    · simp only [addBm, hc, if_true] at hx
      rcases List.mem_cons.mp hx with hx' | hx'
      · right; left
        exact ⟨x0, List.mem_cons_self x0 xs, hc, hx'⟩
      · left
        refine ⟨List.mem_cons_of_mem x0 hx', ?_⟩
        intro hk
        exact (hx0 x hx') (hc.symm ▸ hk ▸ rfl)
    · simp only [addBm, hc, if_false] at hx
      rcases List.mem_cons.mp hx with hx' | hx'
      · subst hx'
        left; exact ⟨List.mem_cons_self x xs, hc⟩
      · rcases ih b hxs x hx' with ⟨hm, hk⟩ | ⟨a, ha, hk, he⟩ | ⟨hall, he⟩
        · left; exact ⟨List.mem_cons_of_mem x0 hm, hk⟩
        · right; left; exact ⟨a, List.mem_cons_of_mem x0 ha, hk, he⟩
        · right; right
          refine ⟨?_, he⟩
          intro a ha
          rcases List.mem_cons.mp ha with ha' | ha'
          · rw [ha']; exact hc
          · exact hall a ha'

theorem addBm_keys_cover (w : ℚ) :
    ∀ (acc : List Res) (b : Res), ∀ a ∈ acc,
      ∃ y ∈ addBm w acc b, keyOf y = keyOf a := by
  intro acc
  induction acc with
  | nil => intro b a ha; cases ha
  | cons x xs ih =>
    intro b a ha
    by_cases hc : keyOf x = keyOf b
    · simp only [addBm, hc, if_true]
      rcases List.mem_cons.mp ha with ha' | ha'
      · rw [ha']
        exact ⟨⟨x.text, x.metadata, x.score + b.score * w⟩,
          List.mem_cons_self _ xs, rfl⟩
      · exact ⟨a, List.mem_cons_of_mem _ ha', rfl⟩
    · simp only [addBm, hc, if_false]
      rcases List.mem_cons.mp ha with ha' | ha'
      · subst ha'
        exact ⟨a, List.mem_cons_self a _, rfl⟩
      · rcases ih b a ha' with ⟨y, hy, hk⟩
        exact ⟨y, List.mem_cons_of_mem x hy, hk⟩

theorem foldl_addBm_char (w : ℚ) :
    ∀ (bs acc : List Res), FpNodup keyOf acc → FpNodup keyOf bs →
      FpNodup keyOf (bs.foldl (addBm w) acc) ∧
      ∀ x ∈ bs.foldl (addBm w) acc,
        (x ∈ acc ∧ ∀ b ∈ bs, keyOf b ≠ keyOf x) ∨
        (∃ a ∈ acc, ∃ b ∈ bs, keyOf a = keyOf b ∧
          x = ⟨a.text, a.metadata, a.score + b.score * w⟩) ∨
        (∃ b ∈ bs, (∀ a ∈ acc, keyOf a ≠ keyOf b) ∧
          x = ⟨b.text, b.metadata, b.score * w⟩) := by
  intro bs
  induction bs with
  | nil =>
    intro acc hacc _
    refine ⟨hacc, ?_⟩
    intro x hx
    left
    exact ⟨hx, fun b hb => absurd hb (List.not_mem_nil b)⟩
  | cons b bs' ih =>
    intro acc hacc hnd
    rcases List.pairwise_cons.mp hnd with ⟨hb, hnd'⟩
    simp only [List.foldl_cons]
    have hacc' : FpNodup keyOf (addBm w acc b) := addBm_keys_nodup w acc b hacc
    rcases ih (addBm w acc b) hacc' hnd' with ⟨h1, h2⟩
    refine ⟨h1, ?_⟩
    intro x hx
    rcases h2 x hx with ⟨hm, hk⟩ | ⟨a', ha', b', hb', hk, he⟩ | ⟨b', hb', hall, he⟩
    · rcases mem_addBm w acc b hacc x hm with
        ⟨hm2, hk2⟩ | ⟨a, ha, hk2, he2⟩ | ⟨hall2, he2⟩
      · left
        refine ⟨hm2, ?_⟩
        intro b2 hb2
        rcases List.mem_cons.mp hb2 with hb2' | hb2'
        · subst hb2'; exact fun hkk => hk2 hkk.symm
        · exact hk b2 hb2'
      · right; left
        exact ⟨a, ha, b, List.mem_cons_self b bs', hk2, he2⟩
      · right; right
        exact ⟨b, List.mem_cons_self b bs', hall2, he2⟩
    · rcases mem_addBm w acc b hacc a' ha' with
        ⟨hm2, hk2⟩ | ⟨a, ha, hk2, he2⟩ | ⟨hall2, he2⟩
      · right; left
        exact ⟨a', hm2, b', List.mem_cons_of_mem b hb', hk, he⟩
      · exfalso
        apply hb b' hb'
        have : keyOf a' = keyOf a := he2 ▸ keyOf_mk_eq a _
        rw [← hk, this, hk2]
      · exfalso
        apply hb b' hb'
        have : keyOf a' = keyOf b := he2 ▸ keyOf_mk_eq b _
        rw [← hk, this]
    · right; right
      refine ⟨b', List.mem_cons_of_mem b hb', ?_, he⟩
      intro a ha
      rcases addBm_keys_cover w acc b a ha with ⟨y, hy, hky⟩
      rw [← hky]
      exact hall y hy

theorem fpNodup_map_semWeighted {semRes : List Res} (w : ℚ)
    (h : FpNodup keyOf semRes) :
    FpNodup keyOf (semRes.map (semWeighted w)) := by
  rw [FpNodup, List.pairwise_map]
  exact h.imp (fun {a b} hab => by
    rw [keyOf_semWeighted, keyOf_semWeighted]; exact hab)

/-- C1: in `search_hybrid(query, k, semantic_weight, bm25_weight)`, a
document whose 200-character text fingerprint appears in both the
semantic results (score `s`) and the BM25 results (score `b`) carries
fused score `s*semantic_weight + b*bm25_weight`; a document appearing
in only one of the two lists carries exactly its own weighted score;
the returned list is sorted descending by fused score and has at most
`k` elements.  The two input lists are assumed fingerprint-duplicate
free, which is what makes "its score" well defined. -/
theorem search_hybrid_fusion
    (semRes bm25Res : List Res) (wS wB : ℚ) (n : Nat)
    (hs : FpNodup keyOf semRes) (hb : FpNodup keyOf bm25Res) :
    (∀ r ∈ searchHybrid semRes bm25Res wS wB n,
       (∀ s ∈ semRes, ∀ b ∈ bm25Res, keyOf r = keyOf s → keyOf r = keyOf b →
          r.score = s.score * wS + b.score * wB) ∧
       (∀ s ∈ semRes, keyOf r = keyOf s → (∀ b ∈ bm25Res, keyOf b ≠ keyOf s) →
          r.score = s.score * wS) ∧
       (∀ b ∈ bm25Res, keyOf r = keyOf b → (∀ s ∈ semRes, keyOf s ≠ keyOf b) →
          r.score = b.score * wB)) ∧
    (searchHybrid semRes bm25Res wS wB n).Pairwise
      (fun a b => b.score ≤ a.score) ∧
    (searchHybrid semRes bm25Res wS wB n).length ≤ n := by
  have hmap : FpNodup keyOf (semRes.map (semWeighted wS)) :=
    fpNodup_map_semWeighted wS hs
  have hmerge : mergeHybrid semRes bm25Res wS wB =
      bm25Res.foldl (addBm wB) (semRes.map (semWeighted wS)) := by
    rw [mergeHybrid, foldl_putSem_eq wS semRes []
      (fun a ha => absurd ha (List.not_mem_nil a)) hs]
    simp
  rcases foldl_addBm_char wB bm25Res (semRes.map (semWeighted wS)) hmap hb with
    ⟨_, hchar⟩
  refine ⟨?_, ?_, ?_⟩
  · intro r hr
    have hr1 : r ∈ sortDescScore (mergeHybrid semRes bm25Res wS wB) :=
      List.mem_of_mem_take hr
    have hr2 : r ∈ mergeHybrid semRes bm25Res wS wB :=
      (sortDescScore_perm _).mem_iff.mp hr1
    rw [hmerge] at hr2
    rcases hchar r hr2 with ⟨hm, hnob⟩ | ⟨a, ha, b, hbm, hk, he⟩ | ⟨b, hbm, hall, he⟩
    · -- r is a purely semantic entry
      rcases List.mem_map.mp hm with ⟨s0, hs0, hs0e⟩
      refine ⟨?_, ?_, ?_⟩
      · intro s hsm b hbmem hks hkb
        exact absurd (hkb.symm) (hnob b hbmem)
      · intro s hsm hks _
        have hks0 : keyOf r = keyOf s0 := by
          rw [← hs0e, keyOf_semWeighted]
        have heq : s0 = s := eq_of_fpNodup keyOf semRes s0 s hs hs0 hsm
          (hks0.symm.trans hks)
        subst heq
        rw [← hs0e]
        rfl
      · intro b hbmem hkb _
        exact absurd hkb.symm (hnob b hbmem)
    · -- r fuses a semantic and a BM25 entry
      rcases List.mem_map.mp ha with ⟨s0, hs0, hs0e⟩
      have hkr : keyOf r = keyOf a := by rw [he]; exact keyOf_mk_eq a _
      have hka : keyOf a = keyOf s0 := by rw [← hs0e, keyOf_semWeighted]
      refine ⟨?_, ?_, ?_⟩
      · intro s hsm b2 hb2 hks hkb2
        have hseq : s0 = s := eq_of_fpNodup keyOf semRes s0 s hs hs0 hsm
          (hka.symm.trans (hkr.symm.trans hks))
        have hbeq : b = b2 := eq_of_fpNodup keyOf bm25Res b b2 hb hbm hb2
          (hk.symm.trans (hkr.symm.trans hkb2))
        subst hseq
        subst hbeq
        calc r.score = a.score + b.score * wB := by rw [he]
          _ = s0.score * wS + b.score * wB := by rw [← hs0e]; rfl
      · intro s hsm hks hnb
        exact absurd (hk.symm.trans (hkr.symm.trans hks)) (hnb b hbm)
      · intro b2 hb2 hkb2 hns
        exact absurd (hka.symm.trans (hkr.symm.trans hkb2)) (hns s0 hs0)
    · -- r is a purely lexical (BM25) entry
      have hkr : keyOf r = keyOf b := by rw [he]; exact keyOf_mk_eq b _
      refine ⟨?_, ?_, ?_⟩
      · intro s hsm b2 hb2 hks hkb2
        have : keyOf (semWeighted wS s) = keyOf b := by
          rw [keyOf_semWeighted]; exact hks.symm.trans hkr
        exact absurd this (hall _ (List.mem_map_of_mem _ hsm))
      · intro s hsm hks hnb
        exact absurd (hkr.symm.trans hks) (hnb b hbm)
      · intro b2 hb2 hkb2 hns
        have hbeq : b = b2 := eq_of_fpNodup keyOf bm25Res b b2 hb hbm hb2
          (hkr.symm.trans hkb2)
        subst hbeq
        rw [he]
  · exact (sortDescScore_sorted _).sublist (List.take_sublist n _)
  · exact List.length_take_le n _

/-- Example metadata record used by the concrete witnesses. -/
def mEx : ChunkMeta := ⟨[], [], [], [], "article", 1, [], false⟩

def semEx : List Res := [⟨"alpha doc".toList, mEx, 4⟩]

def bmEx : List Res :=
  [⟨"alpha doc".toList, mEx, 1⟩, ⟨"beta doc".toList, mEx, 2⟩]

/-- Witness for C1: the fusion theorem applied to one concrete
semantic result list and one concrete BM25 result list. -/
theorem search_hybrid_fusion_witness :
    (FpNodup keyOf semEx ∧ FpNodup keyOf bmEx) ∧
    ((∀ r ∈ searchHybrid semEx bmEx 3 2 20,
       (∀ s ∈ semEx, ∀ b ∈ bmEx, keyOf r = keyOf s → keyOf r = keyOf b →
          r.score = s.score * 3 + b.score * 2) ∧
       (∀ s ∈ semEx, keyOf r = keyOf s → (∀ b ∈ bmEx, keyOf b ≠ keyOf s) →
          r.score = s.score * 3) ∧
       (∀ b ∈ bmEx, keyOf r = keyOf b → (∀ s ∈ semEx, keyOf s ≠ keyOf b) →
          r.score = b.score * 2)) ∧
     (searchHybrid semEx bmEx 3 2 20).Pairwise (fun a b => b.score ≤ a.score) ∧
     (searchHybrid semEx bmEx 3 2 20).length ≤ 20) := by
  have h1 : FpNodup keyOf semEx := by unfold FpNodup; decide
  have h2 : FpNodup keyOf bmEx := by unfold FpNodup; decide
  exact ⟨⟨h1, h2⟩, search_hybrid_fusion semEx bmEx 3 2 20 h1 h2⟩

/-! ### `VectorStore.search_multi_query` (vector_store.py, lines 267-327)

The per-query hybrid search is a parameter (`hybrid q nper` stands for
`self.search_hybrid(q, n_results=nper)`); the merging of `all_results`
and the two diversification passes are embedded below. -/

/-- The diversification key
`chapitre or article or "unknown"` (Python `or` on
strings treats the empty string as falsy). -/
def chapKey (r : Res) : Str :=
  if r.metadata.chapitre ≠ [] then r.metadata.chapitre
  else if r.metadata.article ≠ [] then r.metadata.article
  else "unknown".toList

/-- One `all_results` update: keep, per fingerprint, the
highest-scoring occurrence (the first one seen wins ties); a dict
assignment to an existing key keeps its insertion position. -/
def mergeMQ : List Res → Res → List Res
  | [], r => [r]
  | x :: xs, r =>
    if keyOf x = keyOf r then (if x.score < r.score then r else x) :: xs
    else x :: mergeMQ xs r

/-- `all_results` after the per-query collection loop. -/
def allResultsMQ (hybrid : String → Nat → List Res) (queries : List String)
    (nper : Nat) : List Res :=
  queries.foldl (fun acc q => (hybrid q nper).foldl mergeMQ acc) []

/-- First diversification pass: walk the sorted candidates and admit
at most one candidate per chapter key; the check against `max_total`
happens after each admission. -/
def pass1Go (maxTotal : Nat) : List Res → List Str → List Res → List Res
  | [], _, sel => sel
  | r :: rest, seen, sel =>
    if chapKey r ∈ seen then pass1Go maxTotal rest seen sel
    else if maxTotal ≤ (sel ++ [r]).length then sel ++ [r]
    else pass1Go maxTotal rest (chapKey r :: seen) (sel ++ [r])

/-- Second pass: walk the candidates again and admit anything not yet
selected, until the cap is reached. -/
def pass2Go (maxTotal : Nat) : List Res → List Res → List Res
  | [], sel => sel
  | r :: rest, sel =>
    if r ∈ sel then pass2Go maxTotal rest sel
    else if maxTotal ≤ (sel ++ [r]).length then sel ++ [r]
    else pass2Go maxTotal rest (sel ++ [r])

/-- `VectorStore.search_multi_query`; `count` is the ChromaDB
collection count checked by the early-return guard, and the sorted
`all_results.values()` list is the candidate order fed to both
passes. -/
def searchMultiQuery (count : Nat) (hybrid : String → Nat → List Res)
    (queries : List String) (nper maxTotal : Nat) : List Res :=
  if count = 0 then []
  else if allResultsMQ hybrid queries nper = [] then []
  else if (pass1Go maxTotal
      (sortDescScore (allResultsMQ hybrid queries nper)) [] []).length <
      maxTotal then
    pass2Go maxTotal (sortDescScore (allResultsMQ hybrid queries nper))
      (pass1Go maxTotal (sortDescScore (allResultsMQ hybrid queries nper)) [] [])
  else pass1Go maxTotal (sortDescScore (allResultsMQ hybrid queries nper)) [] []

theorem pass1Go_append (maxTotal : Nat) :
    ∀ (cands : List Res) (seen : List Str) (sel : List Res),
      ∃ t, pass1Go maxTotal cands seen sel = sel ++ t ∧ t.Sublist cands := by
  intro cands
  induction cands with
  | nil => intro seen sel; exact ⟨[], by simp [pass1Go], List.nil_sublist []⟩
  | cons r rest ih =>
    intro seen sel
    by_cases h1 : chapKey r ∈ seen
    · rcases ih seen sel with ⟨t, ht, hs⟩
      refine ⟨t, ?_, hs.cons r⟩
      simp only [pass1Go, h1, if_true]
      exact ht
    · by_cases h2 : maxTotal ≤ (sel ++ [r]).length
      · refine ⟨[r], ?_, ?_⟩
        · simp only [pass1Go, h1, if_false, h2, if_true]
        · exact (List.nil_sublist rest).cons₂ r
      · rcases ih (chapKey r :: seen) (sel ++ [r]) with ⟨t, ht, hs⟩
        refine ⟨r :: t, ?_, hs.cons₂ r⟩
        simp only [pass1Go, h1, if_false, h2]
        rw [ht, List.append_assoc]
        rfl

theorem pass1Go_length (maxTotal : Nat) :
    ∀ (cands : List Res) (seen : List Str) (sel : List Res),
      sel.length < maxTotal →
      (pass1Go maxTotal cands seen sel).length ≤ maxTotal := by
  intro cands
  induction cands with
  | nil => intro seen sel h; simpa [pass1Go] using Nat.le_of_lt h
  | cons r rest ih =>
    intro seen sel h
    by_cases h1 : chapKey r ∈ seen
    · simp only [pass1Go, h1, if_true]
      exact ih seen sel h
    · by_cases h2 : maxTotal ≤ (sel ++ [r]).length
      · simp only [pass1Go, h1, if_false, h2, if_true]
        simp only [List.length_append, List.length_singleton]
        omega

      · simp only [pass1Go, h1, if_false, h2, if_false]
        refine ih _ _ ?_
        simp only [List.length_append, List.length_singleton] at h2 ⊢
        omega

theorem pass1Go_chapNodup (maxTotal : Nat) :
    ∀ (cands : List Res) (seen : List Str) (sel : List Res),
      FpNodup chapKey sel → (∀ x ∈ sel, chapKey x ∈ seen) →
      FpNodup chapKey (pass1Go maxTotal cands seen sel) := by
  intro cands
  induction cands with
  | nil => intro seen sel h _; simpa [pass1Go] using h
  | cons r rest ih =>
    intro seen sel hnd hseen
    by_cases h1 : chapKey r ∈ seen
    · simp only [pass1Go, h1, if_true]
      exact ih seen sel hnd hseen
    · have hconc : FpNodup chapKey (sel ++ [r]) := by
        rw [FpNodup, List.pairwise_append]
        refine ⟨hnd, List.pairwise_singleton _ r, ?_⟩
        intro a ha b hb
        simp only [List.mem_singleton] at hb
        subst hb
        intro hk
        exact h1 (hk ▸ hseen a ha)
      by_cases h2 : maxTotal ≤ (sel ++ [r]).length
      · simp only [pass1Go, h1, if_false, h2, if_true]
        exact hconc
      · simp only [pass1Go, h1, if_false, h2, if_false]
        refine ih _ _ hconc ?_
        intro x hx
        rcases List.mem_append.mp hx with hx' | hx'
        · exact List.mem_cons_of_mem _ (hseen x hx')
        · simp only [List.mem_singleton] at hx'
          subst hx'
          exact List.mem_cons_self _ _

theorem pass1Go_take (maxTotal : Nat) :
    ∀ (cands : List Res) (seen : List Str) (sel : List Res),
      FpNodup chapKey cands → (∀ r ∈ cands, chapKey r ∉ seen) →
      sel.length < maxTotal →
      pass1Go maxTotal cands seen sel =
        sel ++ cands.take (maxTotal - sel.length) := by
  intro cands
  induction cands with
  | nil => intro seen sel _ _ _; simp [pass1Go]
  | cons r rest ih =>
    intro seen sel hnd hseen hlen
    rcases List.pairwise_cons.mp hnd with ⟨hr, hnd'⟩
    have h1 : chapKey r ∉ seen := hseen r (List.mem_cons_self r rest)
    by_cases h2 : maxTotal ≤ (sel ++ [r]).length
    · simp only [pass1Go, h1, if_false, h2, if_true]
      simp only [List.length_append, List.length_singleton] at h2
      have : maxTotal - sel.length = 1 := by omega
      rw [this]
      simp
    · simp only [pass1Go, h1, if_false, h2, if_false]
      rw [ih (chapKey r :: seen) (sel ++ [r]) hnd' ?_ ?_]
      · simp only [List.length_append, List.length_singleton] at h2 ⊢
        have hm : maxTotal - sel.length = (maxTotal - (sel.length + 1)) + 1 := by
          omega
        rw [hm, List.take_succ_cons, List.append_assoc]
        rfl
      · intro r' hr'
        simp only [List.mem_cons]
        push_neg
        exact ⟨fun hk => hr r' hr' hk.symm, hseen r' (List.mem_cons_of_mem r hr')⟩
      · simp only [List.length_append, List.length_singleton] at h2 ⊢
        omega

/-- C4: the first selection pass of `search_multi_query` walks the
merged candidates in descending fused-score order and admits at most
one candidate per chapter key, stopping once `max_total` results are
admitted: its output has pairwise-distinct chapter keys, has at most
`max_total` elements, is a sublist of the candidate order (hence
descending by score whenever the candidates are), and when the
candidates' chapter keys are pairwise distinct (e.g. 4 distinct
chapters with `max_total = 3`) it is exactly the top `max_total`
candidates, one per chapter. -/
theorem search_multi_query_first_pass
    (cands : List Res) (maxTotal : Nat) (hm : 1 ≤ maxTotal) :
    FpNodup chapKey (pass1Go maxTotal cands [] []) ∧
    (pass1Go maxTotal cands [] []).length ≤ maxTotal ∧
    (pass1Go maxTotal cands [] []).Sublist cands ∧
    (cands.Pairwise (fun a b => b.score ≤ a.score) →
      (pass1Go maxTotal cands [] []).Pairwise (fun a b => b.score ≤ a.score)) ∧
    (FpNodup chapKey cands →
      pass1Go maxTotal cands [] [] = cands.take maxTotal) := by
  have hsub : (pass1Go maxTotal cands [] []).Sublist cands := by
    rcases pass1Go_append maxTotal cands [] [] with ⟨t, ht, hs⟩
    rw [ht]
    simpa using hs
  refine ⟨?_, ?_, hsub, ?_, ?_⟩
  · exact pass1Go_chapNodup maxTotal cands [] []
      (by simp [FpNodup]) (by intro x hx; cases hx)
  · exact pass1Go_length maxTotal cands [] [] (by simpa using hm)
  · intro hsorted
    exact hsorted.sublist hsub
  · intro hnd
    rw [pass1Go_take maxTotal cands [] [] hnd
      (by intro r _ h; cases h) (by simpa using hm)]
    simp

def cands4 : List Res :=
  [⟨"doc one".toList, ⟨[], "CHAPITRE I".toList, [], [], "article", 1, [], false⟩, 9⟩,
   ⟨"doc two".toList, ⟨[], "CHAPITRE II".toList, [], [], "article", 1, [], false⟩, 8⟩,
   ⟨"doc three".toList, ⟨[], "CHAPITRE III".toList, [], [], "article", 2, [], false⟩, 7⟩,
   ⟨"doc four".toList, ⟨[], "CHAPITRE IV".toList, [], [], "article", 3, [], false⟩, 6⟩]

/-- Witness for C4: four candidates from four distinct chapters with
`max_total = 3`. -/
theorem search_multi_query_first_pass_witness :
    1 ≤ 3 ∧
    (FpNodup chapKey (pass1Go 3 cands4 [] []) ∧
     (pass1Go 3 cands4 [] []).length ≤ 3 ∧
     (pass1Go 3 cands4 [] []).Sublist cands4 ∧
     (cands4.Pairwise (fun a b => b.score ≤ a.score) →
       (pass1Go 3 cands4 [] []).Pairwise (fun a b => b.score ≤ a.score)) ∧
     (FpNodup chapKey cands4 → pass1Go 3 cands4 [] [] = cands4.take 3)) :=
  ⟨by decide, search_multi_query_first_pass cands4 3 (by decide)⟩

theorem mergeMQ_mem :
    ∀ (acc : List Res) (r : Res), ∀ x ∈ mergeMQ acc r, x ∈ acc ∨ x = r := by
  intro acc
  induction acc with
  | nil =>
    intro r x hx
    simp only [mergeMQ, List.mem_singleton] at hx
    right; exact hx
  | cons x0 xs ih =>
    intro r x hx
    by_cases hc : keyOf x0 = keyOf r
    · simp only [mergeMQ, hc, if_true] at hx
      by_cases hsc : x0.score < r.score
      · simp only [hsc, if_true] at hx
        rcases List.mem_cons.mp hx with h' | h'
        · right; exact h'
        · left; exact List.mem_cons_of_mem x0 h'
      · simp only [hsc, if_false] at hx
        left; exact hx
    · simp only [mergeMQ, hc, if_false] at hx
      rcases List.mem_cons.mp hx with h' | h'
      · left; exact h' ▸ List.mem_cons_self x0 xs
      · rcases ih r x h' with h'' | h''
        · left; exact List.mem_cons_of_mem x0 h''
        · right; exact h''

theorem mergeMQ_keys_nodup :
    ∀ (acc : List Res) (r : Res), FpNodup keyOf acc →
      FpNodup keyOf (mergeMQ acc r) := by
  intro acc
  induction acc with
  | nil => intro r _; simp [mergeMQ, FpNodup]
  | cons x xs ih =>
    intro r h
    rcases List.pairwise_cons.mp h with ⟨hx, hxs⟩
    by_cases hc : keyOf x = keyOf r
    · simp only [mergeMQ, hc, if_true]
      by_cases hsc : x.score < r.score
      · simp only [hsc, if_true]
        refine List.pairwise_cons.mpr ⟨?_, hxs⟩
        intro a ha hk
        exact hx a ha (by rw [← hc] at hk; exact hk)
      · simp only [hsc, if_false]
        exact h
    · simp only [mergeMQ, hc, if_false]
      refine List.pairwise_cons.mpr ⟨?_, ih r hxs⟩
      intro a ha
      rcases mergeMQ_mem xs r a ha with h' | h'
      · exact hx a h'
      · rw [h']; exact hc

theorem mergeMQ_step :
    ∀ (acc : List Res) (r : Res), FpNodup keyOf acc →
      ∀ x ∈ mergeMQ acc r,
        (x ∈ acc ∧ (keyOf x = keyOf r → r.score ≤ x.score)) ∨
        (x = r ∧ ∀ a ∈ acc, keyOf a = keyOf r → a.score ≤ r.score) := by
  intro acc
  induction acc with
  | nil =>
    intro r _ x hx
    simp only [mergeMQ, List.mem_singleton] at hx
    right
    exact ⟨hx, fun a ha => absurd ha (List.not_mem_nil a)⟩
  | cons x0 xs ih =>
    intro r h x hx
    rcases List.pairwise_cons.mp h with ⟨hx0, hxs⟩
    by_cases hc : keyOf x0 = keyOf r
    · simp only [mergeMQ, hc, if_true] at hx
      by_cases hsc : x0.score < r.score
      · simp only [hsc, if_true] at hx
        rcases List.mem_cons.mp hx with h' | h'
        · subst h'
          right
          refine ⟨rfl, ?_⟩
          intro a ha hk
          rcases List.mem_cons.mp ha with ha' | ha'
          · subst ha'; exact le_of_lt hsc
          · exact absurd (hc.trans hk.symm) (hx0 a ha')
        · left
          refine ⟨List.mem_cons_of_mem x0 h', ?_⟩
          intro hk
          exact absurd (hk.trans hc.symm).symm (hx0 x h')
      · simp only [hsc, if_false] at hx
        rcases List.mem_cons.mp hx with h' | h'
        · subst h'
          left
          exact ⟨List.mem_cons_self x xs, fun _ => le_of_not_lt hsc⟩
        · left
          refine ⟨List.mem_cons_of_mem x0 h', ?_⟩
          intro hk
          exact absurd (hk.trans hc.symm).symm (hx0 x h')
    · simp only [mergeMQ, hc, if_false] at hx
      rcases List.mem_cons.mp hx with h' | h'
      · subst h'
        left
        exact ⟨List.mem_cons_self x xs, fun hk => absurd hk hc⟩
      · rcases ih r hxs x h' with ⟨hm, hsc⟩ | ⟨he, hall⟩
        · left; exact ⟨List.mem_cons_of_mem x0 hm, hsc⟩
        · right
          refine ⟨he, ?_⟩
          intro a ha hk
          rcases List.mem_cons.mp ha with ha' | ha'
          · subst ha'; exact absurd hk hc
          · exact hall a ha' hk

theorem mergeMQ_cover :
    ∀ (acc : List Res) (r : Res), ∀ a ∈ acc,
      ∃ y ∈ mergeMQ acc r, keyOf y = keyOf a ∧ a.score ≤ y.score := by
  intro acc
  induction acc with
  | nil => intro r a ha; cases ha
  | cons x0 xs ih =>
    intro r a ha
    by_cases hc : keyOf x0 = keyOf r
    · simp only [mergeMQ, hc, if_true]
      by_cases hsc : x0.score < r.score
      · simp only [hsc, if_true]
        rcases List.mem_cons.mp ha with ha' | ha'
        · subst ha'
          exact ⟨r, List.mem_cons_self r xs, hc.symm, le_of_lt hsc⟩
        · exact ⟨a, List.mem_cons_of_mem r ha', rfl, le_refl _⟩
      · simp only [hsc, if_false]
        rcases List.mem_cons.mp ha with ha' | ha'
        · subst ha'
          exact ⟨a, List.mem_cons_self a xs, rfl, le_refl _⟩
        · exact ⟨a, List.mem_cons_of_mem x0 ha', rfl, le_refl _⟩
    · simp only [mergeMQ, hc, if_false]
      rcases List.mem_cons.mp ha with ha' | ha'
      · subst ha'
        exact ⟨a, List.mem_cons_self a _, rfl, le_refl _⟩
      · rcases ih r a ha' with ⟨y, hy, hk, hs⟩
        exact ⟨y, List.mem_cons_of_mem x0 hy, hk, hs⟩

theorem mergeMQ_rcover :
    ∀ (acc : List Res) (r : Res),
      ∃ y ∈ mergeMQ acc r, keyOf y = keyOf r ∧ r.score ≤ y.score := by
  intro acc
  induction acc with
  | nil =>
    intro r
    exact ⟨r, List.mem_singleton.mpr rfl, rfl, le_refl _⟩
  | cons x0 xs ih =>
    intro r
    by_cases hc : keyOf x0 = keyOf r
    · simp only [mergeMQ, hc, if_true]
      by_cases hsc : x0.score < r.score
      · simp only [hsc, if_true]
        exact ⟨r, List.mem_cons_self r xs, rfl, le_refl _⟩
      · simp only [hsc, if_false]
        exact ⟨x0, List.mem_cons_self x0 xs, hc, le_of_not_lt hsc⟩
    · simp only [mergeMQ, hc, if_false]
      rcases ih r with ⟨y, hy, hk, hs⟩
      exact ⟨y, List.mem_cons_of_mem x0 hy, hk, hs⟩

theorem mq_fold :
    ∀ (occs acc S : List Res),
      FpNodup keyOf acc →
      (∀ x ∈ acc, x ∈ S ∧ ∀ y ∈ S, keyOf y = keyOf x → y.score ≤ x.score) →
      (∀ y ∈ S, ∃ x ∈ acc, keyOf x = keyOf y) →
      FpNodup keyOf (occs.foldl mergeMQ acc) ∧
      (∀ x ∈ occs.foldl mergeMQ acc, x ∈ S ++ occs ∧
        ∀ y ∈ S ++ occs, keyOf y = keyOf x → y.score ≤ x.score) ∧
      (∀ y ∈ S ++ occs, ∃ x ∈ occs.foldl mergeMQ acc, keyOf x = keyOf y) := by
  intro occs
  induction occs with
  | nil =>
    intro acc S h1 h2 h3
    simpa using ⟨h1, h2, h3⟩
  | cons r occs' ih =>
    intro acc S h1 h2 h3
    simp only [List.foldl_cons]
    have inv1 : FpNodup keyOf (mergeMQ acc r) := mergeMQ_keys_nodup acc r h1
    have inv2 : ∀ x ∈ mergeMQ acc r, x ∈ S ++ [r] ∧
        ∀ y ∈ S ++ [r], keyOf y = keyOf x → y.score ≤ x.score := by
      intro x hx
      rcases mergeMQ_step acc r h1 x hx with ⟨hm, himp⟩ | ⟨he, hall⟩
      · rcases h2 x hm with ⟨hS, hdom⟩
        refine ⟨List.mem_append_left _ hS, ?_⟩
        intro y hy hk
        rcases List.mem_append.mp hy with hy' | hy'
        · exact hdom y hy' hk
        · have hyr : y = r := List.mem_singleton.mp hy'
          subst hyr
          exact himp hk.symm
      · refine ⟨List.mem_append_right _
          (by rw [he]; exact List.mem_singleton.mpr rfl), ?_⟩
        intro y hy hk
        have hkr : keyOf y = keyOf r := by rw [← he]; exact hk
        rcases List.mem_append.mp hy with hy' | hy'
        · rcases h3 y hy' with ⟨a, ham, hka⟩
          rcases h2 a ham with ⟨_, hdom⟩
          rw [he]
          exact le_trans (hdom y hy' hka.symm) (hall a ham (hka.trans hkr))
        · have hyr : y = r := List.mem_singleton.mp hy'
          rw [he, hyr]
    have inv3 : ∀ y ∈ S ++ [r], ∃ x ∈ mergeMQ acc r, keyOf x = keyOf y := by
      intro y hy
      rcases List.mem_append.mp hy with hy' | hy'
      · rcases h3 y hy' with ⟨a, ham, hka⟩
        rcases mergeMQ_cover acc r a ham with ⟨z, hz, hkz, _⟩
        exact ⟨z, hz, hkz.trans hka⟩
      · have hyr : y = r := List.mem_singleton.mp hy'
        rcases mergeMQ_rcover acc r with ⟨z, hz, hkz, _⟩
        exact ⟨z, hz, hkz.trans (congrArg keyOf hyr).symm⟩
    rcases ih (mergeMQ acc r) (S ++ [r]) inv1 inv2 inv3 with ⟨j1, j2, j3⟩
    have hSr : (S ++ [r]) ++ occs' = S ++ (r :: occs') := by simp
    rw [hSr] at j2 j3
    exact ⟨j1, j2, j3⟩

theorem allResultsMQ_eq (hybrid : String → Nat → List Res)
    (queries : List String) (nper : Nat) :
    allResultsMQ hybrid queries nper =
      ((queries.map (fun q => hybrid q nper)).flatten).foldl mergeMQ [] := by
  suffices h : ∀ (qs : List String) (acc : List Res),
      qs.foldl (fun acc q => (hybrid q nper).foldl mergeMQ acc) acc =
        ((qs.map (fun q => hybrid q nper)).flatten).foldl mergeMQ acc from
    h queries []
  intro qs
  induction qs with
  | nil => intro acc; simp
  | cons q qs' ih =>
    intro acc
    simp only [List.foldl_cons, List.map_cons, List.flatten_cons,
      List.foldl_append]
    exact ih _

theorem fpNodup_nodup {f : Res → Str} {l : List Res} (h : FpNodup f l) :
    l.Nodup :=
  h.imp (fun hab he => hab (congrArg f he))

theorem fpNodup_of_mem (cands : List Res) (hc : FpNodup keyOf cands) :
    ∀ (out : List Res), (∀ x ∈ out, x ∈ cands) → out.Nodup →
      FpNodup keyOf out := by
  intro out
  induction out with
  | nil => intro _ _; simp [FpNodup]
  | cons x xs ih =>
    intro hsub hnd
    rcases List.nodup_cons.mp hnd with ⟨hx, hnd'⟩
    refine List.pairwise_cons.mpr ⟨?_, ih
      (fun z hz => hsub z (List.mem_cons_of_mem x hz)) hnd'⟩
    intro b hb hk
    have heq : x = b := eq_of_fpNodup keyOf cands x b hc
      (hsub x (List.mem_cons_self x xs))
      (hsub b (List.mem_cons_of_mem x hb)) hk
    exact hx (heq ▸ hb)

theorem pass2Go_mem (maxTotal : Nat) :
    ∀ (cands sel : List Res), ∀ x ∈ pass2Go maxTotal cands sel,
      x ∈ sel ∨ x ∈ cands := by
  intro cands
  induction cands with
  | nil => intro sel x hx; left; simpa [pass2Go] using hx
  | cons r rest ih =>
    intro sel x hx
    by_cases h1 : r ∈ sel
    · simp only [pass2Go, h1, if_true] at hx
      rcases ih sel x hx with h | h
      · left; exact h
      · right; exact List.mem_cons_of_mem r h
    · by_cases h2 : maxTotal ≤ (sel ++ [r]).length
      · simp only [pass2Go, h1, if_false, h2, if_true] at hx
        rcases List.mem_append.mp hx with h | h
        · left; exact h
        · right
          have hxr : x = r := List.mem_singleton.mp h
          exact hxr ▸ List.mem_cons_self r rest
      · simp only [pass2Go, h1, if_false, h2, if_false] at hx
        rcases ih (sel ++ [r]) x hx with h | h
        · rcases List.mem_append.mp h with h' | h'
          · left; exact h'
          · right
            have : x = r := List.mem_singleton.mp h'
            exact this ▸ List.mem_cons_self r rest
        · right; exact List.mem_cons_of_mem r h

theorem pass2Go_nodup (maxTotal : Nat) :
    ∀ (cands sel : List Res), sel.Nodup →
      (pass2Go maxTotal cands sel).Nodup := by
  intro cands
  induction cands with
  | nil => intro sel h; simpa [pass2Go] using h
  | cons r rest ih =>
    intro sel h
    by_cases h1 : r ∈ sel
    · simp only [pass2Go, h1, if_true]
      exact ih sel h
    · have hconc : (sel ++ [r]).Nodup := by
        rw [List.nodup_append]
        refine ⟨h, List.nodup_singleton r, ?_⟩
        intro a ha hb
        have : a = r := List.mem_singleton.mp hb
        exact h1 (this ▸ ha)
      by_cases h2 : maxTotal ≤ (sel ++ [r]).length
      · simp only [pass2Go, h1, if_false, h2, if_true]
        exact hconc
      · simp only [pass2Go, h1, if_false, h2, if_false]
        exact ih _ hconc

theorem pass2Go_length (maxTotal : Nat) :
    ∀ (cands sel : List Res), cands.Nodup → sel.Nodup →
      sel.length < maxTotal →
      (pass2Go maxTotal cands sel).length =
        min maxTotal
          (sel.length + (cands.filter (fun x => decide (x ∉ sel))).length) := by
  intro cands
  induction cands with
  | nil =>
    intro sel _ _ h
    simp only [pass2Go, List.filter_nil, List.length_nil, Nat.add_zero]
    omega
  | cons r rest ih =>
    intro sel hcnd hsnd hlen
    rcases List.nodup_cons.mp hcnd with ⟨hr, hcnd'⟩
    have hfcons : (r :: rest).filter (fun x => decide (x ∉ sel)) =
        if decide (r ∉ sel) = true then
          r :: rest.filter (fun x => decide (x ∉ sel))
        else rest.filter (fun x => decide (x ∉ sel)) :=
      List.filter_cons
    by_cases h1 : r ∈ sel
    · have hdec : decide (r ∉ sel) = false := by simpa using h1
      rw [hfcons, hdec]
      simp only [Bool.false_eq_true, if_false]
      have hp2 : pass2Go maxTotal (r :: rest) sel = pass2Go maxTotal rest sel := by
        simp only [pass2Go, h1, if_true]
      rw [hp2]
      exact ih sel hcnd' hsnd hlen
    · have hdec : decide (r ∉ sel) = true := by simpa using h1
      rw [hfcons, hdec]
      simp only [if_true, List.length_cons]
      have hconc : (sel ++ [r]).Nodup := by
        rw [List.nodup_append]
        refine ⟨hsnd, List.nodup_singleton r, ?_⟩
        intro a ha hb
        have hb' : a = r := List.mem_singleton.mp hb
        exact h1 (hb' ▸ ha)
      by_cases h2 : maxTotal ≤ (sel ++ [r]).length
      · have hp2 : pass2Go maxTotal (r :: rest) sel = sel ++ [r] := by
          simp only [pass2Go, h1, if_false, h2, if_true]
        rw [hp2]
        simp only [List.length_append, List.length_singleton] at h2 ⊢
        omega
      · have hp2 : pass2Go maxTotal (r :: rest) sel =
            pass2Go maxTotal rest (sel ++ [r]) := by
          simp only [pass2Go, h1, if_false, h2, if_false]
        rw [hp2]
        have hlt : (sel ++ [r]).length < maxTotal := by
          simp only [List.length_append, List.length_singleton] at h2 ⊢
          omega
        rw [ih (sel ++ [r]) hcnd' hconc hlt]
        have hfc : rest.filter (fun x => decide (x ∉ sel ++ [r])) =
            rest.filter (fun x => decide (x ∉ sel)) := by
          apply List.filter_congr
          intro x hx
          have hxr : x ≠ r := fun he => hr (he ▸ hx)
          simp [List.mem_append, hxr]
        rw [hfc]
        simp only [List.length_append, List.length_singleton]
        omega

theorem filter_mem_length_of_sublist :
    ∀ {sel cands : List Res}, sel.Sublist cands → cands.Nodup →
      (cands.filter (fun x => decide (x ∈ sel))).length = sel.length := by
  intro sel cands h
  induction h with
  | slnil => intro _; simp
  | @cons l₁ l₂ y h ih =>
    intro hnd
    rcases List.nodup_cons.mp hnd with ⟨hy, hnd'⟩
    have hys : y ∉ l₁ := fun hmem => hy (h.subset hmem)
    simp only [List.filter_cons]
    have : decide (y ∈ l₁) = false := by simpa using hys
    rw [this]
    simp only [Bool.false_eq_true, if_false]
    exact ih hnd'
  | @cons₂ l₁ l₂ x h ih =>
    intro hnd
    rcases List.nodup_cons.mp hnd with ⟨hx, hnd'⟩
    simp only [List.filter_cons]
    have hdx : decide (x ∈ x :: l₁) = true := by simp
    rw [hdx]
    simp only [if_true, List.length_cons]
    have hfc : l₂.filter (fun z => decide (z ∈ x :: l₁)) =
        l₂.filter (fun z => decide (z ∈ l₁)) := by
      apply List.filter_congr
      intro z hz
      have hzx : z ≠ x := fun he => hx (he ▸ hz)
      simp [hzx]
    rw [hfc, ih hnd']

theorem filter_partition_length (p : Res → Bool) (l : List Res) :
    (l.filter p).length + (l.filter (fun x => !p x)).length = l.length := by
  have h := (List.filter_append_perm p l).length_eq
  simpa [List.length_append] using h

/-- C10: for a non-empty store (`count ≥ 1`), any query list and any
`max_total ≥ 1`, the list returned by `search_multi_query` has
pairwise-distinct 200-character text fingerprints (no candidate is
returned twice across the two selection passes), its length is exactly
`min max_total (number of distinct-fingerprint candidates merged
across all queries)`, and every returned element is an occurrence from
some query's hybrid results carrying the highest score among all
same-fingerprint occurrences across all queries. -/
theorem search_multi_query_output
    (count : Nat) (hybrid : String → Nat → List Res) (queries : List String)
    (nper maxTotal : Nat) (hc : 1 ≤ count) (hm : 1 ≤ maxTotal) :
    FpNodup keyOf (searchMultiQuery count hybrid queries nper maxTotal) ∧
    (searchMultiQuery count hybrid queries nper maxTotal).length =
      min maxTotal (allResultsMQ hybrid queries nper).length ∧
    ∀ r ∈ searchMultiQuery count hybrid queries nper maxTotal,
      (∃ q ∈ queries, r ∈ hybrid q nper) ∧
      ∀ q ∈ queries, ∀ x ∈ hybrid q nper, keyOf x = keyOf r →
        x.score ≤ r.score := by
  have hcne : ¬ count = 0 := by omega
  rcases mq_fold ((queries.map (fun q => hybrid q nper)).flatten) [] []
      (by simp [FpNodup]) (by intro x hx; cases hx) (by intro y hy; cases hy)
    with ⟨hnd_all0, hin_all0, _⟩
  rw [← allResultsMQ_eq] at hnd_all0 hin_all0
  simp only [List.nil_append] at hin_all0
  have hprop : ∀ x ∈ allResultsMQ hybrid queries nper,
      (∃ q ∈ queries, x ∈ hybrid q nper) ∧
      ∀ q ∈ queries, ∀ y ∈ hybrid q nper, keyOf y = keyOf x →
        y.score ≤ x.score := by
    intro x hx
    rcases hin_all0 x hx with ⟨hmem, hdom⟩
    constructor
    · rcases List.mem_flatten.mp hmem with ⟨l, hl, hxl⟩
      rcases List.mem_map.mp hl with ⟨q, hq, hqe⟩
      exact ⟨q, hq, hqe ▸ hxl⟩
    · intro q hq y hy hk
      refine hdom y ?_ hk
      exact List.mem_flatten.mpr ⟨hybrid q nper, List.mem_map_of_mem _ hq, hy⟩
  by_cases hane : allResultsMQ hybrid queries nper = []
  · have hout : searchMultiQuery count hybrid queries nper maxTotal = [] := by
      simp only [searchMultiQuery, hcne, if_false, hane, if_true]
    rw [hout, hane]
    refine ⟨by simp [FpNodup], by simp, ?_⟩
    intro r hr
    cases hr
  · have hperm : sortDescScore (allResultsMQ hybrid queries nper) ~
        allResultsMQ hybrid queries nper := sortDescScore_perm _
    have hnd_c : FpNodup keyOf (sortDescScore (allResultsMQ hybrid queries nper)) :=
      (hperm.pairwise_iff (fun h he => h he.symm)).mpr hnd_all0
    have hnodup_c : (sortDescScore (allResultsMQ hybrid queries nper)).Nodup :=
      fpNodup_nodup hnd_c
    rcases pass1Go_append maxTotal
        (sortDescScore (allResultsMQ hybrid queries nper)) [] [] with
      ⟨t, ht, hts⟩
    have hsub : (pass1Go maxTotal
        (sortDescScore (allResultsMQ hybrid queries nper)) [] []).Sublist
        (sortDescScore (allResultsMQ hybrid queries nper)) := by
      rw [ht]; simpa using hts
    have hnd_sel : (pass1Go maxTotal
        (sortDescScore (allResultsMQ hybrid queries nper)) [] []).Nodup :=
      hnodup_c.sublist hsub
    have hout_third : ∀ (out : List Res),
        (∀ x ∈ out, x ∈ sortDescScore (allResultsMQ hybrid queries nper)) →
        ∀ r ∈ out,
          (∃ q ∈ queries, r ∈ hybrid q nper) ∧
          ∀ q ∈ queries, ∀ x ∈ hybrid q nper, keyOf x = keyOf r →
            x.score ≤ r.score := by
      intro out hmem r hr
      exact hprop r (hperm.subset (hmem r hr))
    by_cases hlt : (pass1Go maxTotal
        (sortDescScore (allResultsMQ hybrid queries nper)) [] []).length <
        maxTotal
    · -- the second pass runs
      have hout : searchMultiQuery count hybrid queries nper maxTotal =
          pass2Go maxTotal (sortDescScore (allResultsMQ hybrid queries nper))
            (pass1Go maxTotal
              (sortDescScore (allResultsMQ hybrid queries nper)) [] []) := by
        simp only [searchMultiQuery, hcne, if_false, hane, hlt, if_true]
      have hmem2 : ∀ x ∈ pass2Go maxTotal
          (sortDescScore (allResultsMQ hybrid queries nper))
          (pass1Go maxTotal
            (sortDescScore (allResultsMQ hybrid queries nper)) [] []),
          x ∈ sortDescScore (allResultsMQ hybrid queries nper) := by
        intro x hx
        rcases pass2Go_mem maxTotal _ _ x hx with h | h
        · exact hsub.subset h
        · exact h
      rw [hout]
      refine ⟨?_, ?_, hout_third _ hmem2⟩
      · exact fpNodup_of_mem _ hnd_c _ hmem2 (pass2Go_nodup maxTotal _ _ hnd_sel)
      · rw [pass2Go_length maxTotal _ _ hnodup_c hnd_sel hlt]
        have hdn : (fun x : Res => decide (x ∉ pass1Go maxTotal
            (sortDescScore (allResultsMQ hybrid queries nper)) [] [])) =
            (fun x : Res => !decide (x ∈ pass1Go maxTotal
              (sortDescScore (allResultsMQ hybrid queries nper)) [] [])) := by
          funext x
          simp
        rw [hdn]
        have h1 := filter_mem_length_of_sublist hsub hnodup_c
        have h2 := filter_partition_length
          (fun x => decide (x ∈ pass1Go maxTotal
            (sortDescScore (allResultsMQ hybrid queries nper)) [] []))
          (sortDescScore (allResultsMQ hybrid queries nper))
        rw [hperm.length_eq] at h2
        omega
    · -- the first pass already filled the cap
      have hout : searchMultiQuery count hybrid queries nper maxTotal =
          pass1Go maxTotal (sortDescScore (allResultsMQ hybrid queries nper))
            [] [] := by
        simp only [searchMultiQuery, hcne, if_false, hane, hlt, if_false]
      have hle : (pass1Go maxTotal
          (sortDescScore (allResultsMQ hybrid queries nper)) [] []).length ≤
          maxTotal :=
        pass1Go_length maxTotal _ [] [] (by simpa using hm)
      have heq : (pass1Go maxTotal
          (sortDescScore (allResultsMQ hybrid queries nper)) [] []).length =
          maxTotal := by omega
      rw [hout]
      refine ⟨?_, ?_, hout_third _ (fun x hx => hsub.subset hx)⟩
      · exact fpNodup_of_mem _ hnd_c _ (fun x hx => hsub.subset hx) hnd_sel
      · have hcl : maxTotal ≤ (allResultsMQ hybrid queries nper).length := by
          have := hsub.length_le
          rw [hperm.length_eq] at this
          omega
        rw [heq, Nat.min_eq_left hcl]

def hybridEx : String → Nat → List Res := fun q _ =>
  if q = "q1" then [⟨"doc one".toList, mEx, 5⟩, ⟨"doc two".toList, mEx, 3⟩]
  else if q = "q2" then [⟨"doc one".toList, mEx, 7⟩]
  else []

/-- Witness for C10: two queries whose hybrid results overlap on one
fingerprint, a store with one document, `max_total = 2`. -/
theorem search_multi_query_output_witness :
    (1 ≤ 1 ∧ 1 ≤ 2) ∧
    (FpNodup keyOf (searchMultiQuery 1 hybridEx ["q1", "q2"] 5 2) ∧
     (searchMultiQuery 1 hybridEx ["q1", "q2"] 5 2).length =
       min 2 (allResultsMQ hybridEx ["q1", "q2"] 5).length ∧
     ∀ r ∈ searchMultiQuery 1 hybridEx ["q1", "q2"] 5 2,
       (∃ q ∈ (["q1", "q2"] : List String), r ∈ hybridEx q 5) ∧
       ∀ q ∈ (["q1", "q2"] : List String), ∀ x ∈ hybridEx q 5,
         keyOf x = keyOf r → x.score ≤ r.score) :=
  ⟨⟨le_refl 1, by omega⟩,
   search_multi_query_output 1 hybridEx ["q1", "q2"] 5 2 (le_refl 1) (by omega)⟩

/-! ### `VectorStore` state: `add_documents`, `_rebuild_bm25_index`,
`reset`, `get_stats` (vector_store.py, lines 64-132 and 329-349)

The ChromaDB collection is modelled as the list of stored documents
(id, text, metadata); `collection.add` appends (the batching loop in
`add_documents` appends the same documents in order, 100 at a time),
`collection.get` returns them all, and `collection.count` is the list
length.  The Python id `f"chunk_{n}"` is modelled by the number `n`;
the metadata sanitization loop is the identity on the typed metadata
used here (every field is a str, int or bool).  `_bm25_index is None`
is the `bm25Active = false` state. -/

structure VSDoc where
  docId : Nat
  text : Str
  metadata : ChunkMeta
deriving DecidableEq

structure VSState where
  coll : List VSDoc
  bm25Docs : List Str
  bm25Metas : List ChunkMeta
  bm25Active : Bool
deriving DecidableEq

/-- `VectorStore._rebuild_bm25_index`. -/
def rebuildBm25 (s : VSState) : VSState :=
  if s.coll.length = 0 then ⟨s.coll, [], [], false⟩
  else ⟨s.coll, s.coll.map (·.text), s.coll.map (·.metadata), true⟩

/-- `VectorStore.add_documents`: returns the new state and the number
of chunks indexed. -/
def addDocuments (s : VSState) (chunks : List Chunk) : VSState × Nat :=
  if chunks = [] then (s, 0)
  else
    (rebuildBm25
      ⟨s.coll ++ (chunks.enum.map fun p =>
        ⟨s.coll.length + p.1, p.2.text, p.2.metadata⟩),
       s.bm25Docs, s.bm25Metas, s.bm25Active⟩,
     chunks.length)

/-- `VectorStore.reset`. -/
def resetVS (_ : VSState) : VSState := ⟨[], [], [], false⟩

structure StatsV where
  totalChunks : Nat
  bm25Active : Bool
deriving DecidableEq

/-- The dynamic fields of `VectorStore.get_stats` (the other two
fields are configuration constants). -/
def getStatsV (s : VSState) : StatsV := ⟨s.coll.length, s.bm25Active⟩

/-- The lexical index holds exactly the semantic store's documents. -/
def Synced (s : VSState) : Prop :=
  s.bm25Docs = s.coll.map (·.text) ∧
  s.bm25Metas = s.coll.map (·.metadata) ∧
  s.bm25Active = (decide (s.coll.length ≠ 0))

theorem synced_rebuild (s : VSState) : Synced (rebuildBm25 s) := by
  by_cases h : s.coll.length = 0
  · have hnil : s.coll = [] := List.length_eq_zero.mp h
    simp [rebuildBm25, h, Synced, hnil]
  · simp [rebuildBm25, h, Synced]

/-- C7: after every successful `add_documents` call and after every
`reset`, the BM25 index holds exactly the same documents (texts and
metadata) as the semantic store; moreover syncedness is preserved even
by the no-op empty add.  The operation returns a fully rebuilt index,
never a partially updated one. -/
theorem add_documents_rebuilds_in_sync (s : VSState) (chunks : List Chunk) :
    (chunks ≠ [] → Synced (addDocuments s chunks).1) ∧
    (Synced s → Synced (addDocuments s chunks).1) ∧
    Synced (resetVS s) := by
  refine ⟨?_, ?_, ?_⟩
  · intro hne
    simp only [addDocuments, hne, if_false]
    exact synced_rebuild _
  · intro hs
    by_cases hne : chunks = []
    · simpa [addDocuments, hne] using hs
    · simp only [addDocuments, hne, if_false]
      exact synced_rebuild _
  · exact ⟨rfl, rfl, rfl⟩

/-- Witness for C7: one concrete add on an initially unsynced state. -/
theorem add_documents_rebuilds_in_sync_witness :
    (([⟨"Article 7 texte".toList, mEx⟩] : List Chunk) ≠ [] ∧
      Synced (addDocuments ⟨[], ["stale".toList], [], true⟩
        [⟨"Article 7 texte".toList, mEx⟩]).1) ∧
    Synced (resetVS ⟨[], ["stale".toList], [], true⟩) :=
  ⟨⟨by decide,
    (add_documents_rebuilds_in_sync ⟨[], ["stale".toList], [], true⟩
      [⟨"Article 7 texte".toList, mEx⟩]).1 (by decide)⟩,
   (add_documents_rebuilds_in_sync ⟨[], ["stale".toList], [], true⟩
      [⟨"Article 7 texte".toList, mEx⟩]).2.2⟩

/-- C9: `reset` is idempotent — resetting twice gives the same
logically empty store as resetting once — and `get_stats` immediately
after any reset reports zero chunks and an inactive BM25 index. -/
theorem reset_idempotent_stats (s : VSState) :
    resetVS (resetVS s) = resetVS s ∧
    getStatsV (resetVS s) = ⟨0, false⟩ := ⟨rfl, rfl⟩

/-! ### `RAGPipeline.ask` (rag_pipeline.py, lines 114-173)

Query decomposition (an LLM call) has already produced `subQs`;
`searchMulti` and `searchSem` stand for the two retrieval capabilities
of the vector store, and `llm` for the answer-generation model call.
`llmCalls` counts how many times the answer-generation model is
invoked.  The extract headers of `_build_context` (numbering and
percent-formatted scores) are presentation decoration elided from the
embedding; the `pertinence` field of a formatted source likewise keeps
the raw score instead of a percent string. -/

structure SourceEntry where
  texte : Str
  article : Str
  chapitre : Str
  sectionS : Str
  page : Nat
  source : Str
  pertinence : ℚ
deriving DecidableEq

/-- `RAGPipeline._format_sources`. -/
def formatSources (rs : List Res) : List SourceEntry :=
  rs.map fun r =>
    ⟨r.text.take 300 ++ (if 300 < r.text.length then "...".toList else []),
     r.metadata.article, r.metadata.chapitre, r.metadata.sectionM,
     r.metadata.page, r.metadata.source, r.score⟩

/-- `RAGPipeline._build_context` (headers elided, texts kept). -/
def buildContext (rs : List Res) : Str :=
  (rs.map fun r => r.text ++ ['\n']).flatten

/-- `RAGPipeline._build_user_prompt`. -/
def buildUserPrompt (question : String) (context : Str) : Str :=
  "Voici les extraits pertinents des documents juridiques :\n\n".toList ++
  context ++ "\n\n---\n\nQuestion de l\x27utilisateur : ".toList ++
  question.toList ++
  ("\n\nIMPORTANT : Analyse TOUS les extraits ci-dessus. Identifie chaque " ++
   "thème/aspect juridique distinct qu\x27ils couvrent et organise ta " ++
   "réponse par thème. Ne te limite pas à un seul article. Si " ++
   "l\x27information n\x27est pas dans les extraits, dis-le " ++
   "clairement.").toList

/-- The fixed no-result answer of `RAGPipeline.ask`. -/
def noDocsAnswer : Str :=
  ("⚠️ Aucun document n\x27est indexé ou aucun passage pertinent " ++
   "n\x27a été trouvé. Veuillez d\x27abord charger un document PDF.").toList

structure AskOut where
  answer : Str
  sources : List SourceEntry
  llmCalls : Nat
deriving DecidableEq

/-- `RAGPipeline.ask` over the already-decomposed sub-queries. -/
def askModel (searchMulti : List String → Nat → Nat → List Res)
    (searchSem : String → Nat → List Res) (llm : Str → Str)
    (question : String) (subQs : List String) (n : Nat) : AskOut :=
  if searchMulti (question :: subQs) 5 n = [] then
    if searchSem question n = [] then ⟨noDocsAnswer, [], 0⟩
    else ⟨llm (buildUserPrompt question (buildContext (searchSem question n))),
          formatSources (searchSem question n), 1⟩
  else ⟨llm (buildUserPrompt question (buildContext
          (searchMulti (question :: subQs) 5 n))),
        formatSources (searchMulti (question :: subQs) 5 n), 1⟩

/-- C8: when multi-query hybrid retrieval returns nothing, `ask` falls
back to plain semantic search with the original question; if that is
also empty it returns the fixed "no relevant passage found" answer
with an empty source list and performs no answer-generation LLM call,
and otherwise the single LLM call is made on the semantic results. -/
theorem ask_empty_fallback
    (searchMulti : List String → Nat → Nat → List Res)
    (searchSem : String → Nat → List Res) (llm : Str → Str)
    (question : String) (subQs : List String) (n : Nat)
    (hm : searchMulti (question :: subQs) 5 n = []) :
    (searchSem question n = [] →
      askModel searchMulti searchSem llm question subQs n =
        ⟨noDocsAnswer, [], 0⟩) ∧
    (searchSem question n ≠ [] →
      askModel searchMulti searchSem llm question subQs n =
        ⟨llm (buildUserPrompt question (buildContext (searchSem question n))),
         formatSources (searchSem question n), 1⟩) := by
  constructor
  · intro hsem
    simp only [askModel, hm, if_true, hsem]
  · intro hsem
    simp only [askModel, hm, if_true, hsem, if_false]

/-- Witness for C8: retrieval capabilities that return nothing. -/
theorem ask_empty_fallback_witness :
    ((fun (_ : List String) (_ _ : Nat) => ([] : List Res))
        ["Q?"] 5 20 = [] ∧
     (fun (_ : String) (_ : Nat) => ([] : List Res)) "Q?" 20 = []) ∧
    askModel (fun _ _ _ => []) (fun _ _ => [])
        (fun _ => "réponse".toList) "Q?" [] 20 = ⟨noDocsAnswer, [], 0⟩ :=
  ⟨⟨rfl, rfl⟩,
   (ask_empty_fallback (fun _ _ _ => []) (fun _ _ => [])
      (fun _ => "réponse".toList) "Q?" [] 20 rfl).1 rfl⟩

/-! ### The structural chunker (chunker.py)

Configuration constants from config.py. -/

def MAX_CHUNK_SIZE : Nat := 1500
def CHUNK_OVERLAP : Nat := 200
def MIN_CHUNK_SIZE : Nat := 100

/-! Recognition of the five `STRUCTURE_PATTERNS` regexes, applied with
`re.match(..., line.strip(), re.IGNORECASE)`.  Each pattern is an
anchored prefix match; the trailing `.*` of a pattern consumes the
rest of the line and imposes nothing.  The character classes are
embedded literally; `\d` is the ASCII digit class and `\s` the ASCII
whitespace class (the corpus text is cleaned upstream).  Greedy
matching with backtracking reduces to deterministic longest-munch
here because every quantified class is disjoint from the character
class that follows it; the genuine alternative `(?:icle)?` of the
article pattern is kept as an explicit disjunction. -/

def isRomanC (c : Char) : Bool :=
  c.toLower = 'i' || c.toLower = 'v' || c.toLower = 'x' || c.toLower = 'l' ||
  c.toLower = 'c' || c.toLower = 'd' || c.toLower = 'm'

def isSepPunct (c : Char) : Bool :=
  isWs c || c = ':' || c = '.' || c = '-'

/-- Consume a case-insensitive literal (given in lowercase). -/
def eatLitCI : Str → Str → Option Str
  | [], l => some l
  | _ :: _, [] => none
  | e :: es, c :: cs => if c.toLower = e then eatLitCI es cs else none

/-- Consume `p*` (greedy). -/
def eatStar (p : Char → Bool) : Str → Str
  | [] => []
  | c :: cs => if p c then eatStar p cs else c :: cs

/-- Consume `p+` (greedy). -/
def eatPlus (p : Char → Bool) (l : Str) : Option Str :=
  match l with
  | [] => none
  | c :: cs => if p c then some (eatStar p cs) else none

/-- Consume a single character of class `p`. -/
def eatOne (p : Char → Bool) (l : Str) : Option Str :=
  match l with
  | [] => none
  | c :: cs => if p c then some cs else none

/-- `^TITRE\s+[IVXLCDM]+[\s:.\-].*` -/
def matchTitre (l : Str) : Bool :=
  ((((eatLitCI "titre".toList l).bind (eatPlus isWs)).bind
    (eatPlus isRomanC)).bind (eatOne isSepPunct)).isSome

/-- `^CHAPITRE\s+[IVXLCDM\d]+[\s:.\-].*` -/
def matchChapitre (l : Str) : Bool :=
  ((((eatLitCI "chapitre".toList l).bind (eatPlus isWs)).bind
    (eatPlus (fun c => isRomanC c || c.isDigit))).bind
      (eatOne isSepPunct)).isSome

/-- `^Section\s+\d+[\s:.\-].*` -/
def matchSection (l : Str) : Bool :=
  ((((eatLitCI "section".toList l).bind (eatPlus isWs)).bind
    (eatPlus Char.isDigit)).bind (eatOne isSepPunct)).isSome

/-- `^Sous[- ]section\s+\d+[\s:.\-].*` -/
def matchSousSection (l : Str) : Bool :=
  ((((((eatLitCI "sous".toList l).bind
    (eatOne (fun c => c = '-' || c = ' '))).bind
      (eatLitCI "section".toList)).bind (eatPlus isWs)).bind
        (eatPlus Char.isDigit)).bind (eatOne isSepPunct)).isSome

/-- `\.?\s*\d+[\s:.\-]` (the tail of the article pattern). -/
def matchArticleTail (l : Str) : Bool :=
  (((eatPlus Char.isDigit
      (eatStar isWs (match l with | '.' :: cs => cs | _ => l)))).bind
    (eatOne isSepPunct)).isSome

/-- `^Art(?:icle)?\.?\s*\d+[\s:.\-]` -/
def matchArticle (l : Str) : Bool :=
  match eatLitCI "art".toList l with
  | none => false
  | some r1 =>
    (match eatLitCI "icle".toList r1 with
     | some r2 => matchArticleTail r2
     | none => false) || matchArticleTail r1

/-- The first matching pattern, in the priority order of
`STRUCTURE_PATTERNS`. -/
def matchLine (l : Str) : Option String :=
  if matchTitre l then some "titre"
  else if matchChapitre l then some "chapitre"
  else if matchSection l then some "section"
  else if matchSousSection l then some "sous_section"
  else if matchArticle l then some "article"
  else none

/-! Lines, delimiter positions, the page map. -/

/-- `full_text.split('\n')`. -/
def splitNl : Str → List Str
  | [] => [[]]
  | c :: r =>
    if c = '\n' then [] :: splitNl r
    else
      match splitNl r with
      | [] => [[c]]
      | l :: ls => (c :: l) :: ls

/-- Pair each line with its starting offset
(`pos += len(line) + 1`). -/
def withPos : List Str → Nat → List (Str × Nat)
  | [], _ => []
  | l :: ls, p => (l, p) :: withPos ls (p + l.length + 1)

structure Delim where
  pos : Nat
  level : String
  header : Str
deriving DecidableEq

/-- The delimiter scan of `_split_by_structure`. -/
def findDelims (full : Str) : List Delim :=
  (withPos (splitNl full) 0).filterMap fun lp =>
    (matchLine (strip lp.1)).map fun lvl => ⟨lp.2, lvl, strip lp.1⟩

structure PageRec where
  text : Str
  pageNumber : Nat
  source : Str
deriving DecidableEq

/-- Page concatenation with blank-line separators, recording each
page's start offset (`chunk_document`, lines 36-42). -/
def buildFullGo : List PageRec → Str → List (Nat × Nat × Str) →
    Str × List (Nat × Nat × Str)
  | [], full, pm => (full, pm.reverse)
  | p :: ps, full, pm =>
    buildFullGo ps (full ++ p.text ++ ['\n', '\n'])
      ((full.length, p.pageNumber, p.source) :: pm)

def buildFull (pages : List PageRec) : Str × List (Nat × Nat × Str) :=
  buildFullGo pages [] []

/-- `_find_page_number`. -/
def findPage (position : Nat) : List (Nat × Nat × Str) → Nat → Nat
  | [], cur => cur
  | e :: rest, cur =>
    if e.1 ≤ position then findPage position rest e.2.1 else cur

/-- `page_map[0][2] if page_map else "inconnu"`. -/
def sourceOf : List (Nat × Nat × Str) → Str
  | [] => "inconnu".toList
  | e :: _ => e.2.2

/-- Python slice `s[a:b]` for natural indices. -/
def sliceN (s : Str) (a b : Nat) : Str := (s.drop a).take (b - a)

/-! `_split_by_structure` (lines 63-144). -/

/-- The hierarchical context label parts. -/
def ctxParts (titre chapitre sectionC : Str) (level : String) : List Str :=
  (if titre ≠ [] then [titre] else []) ++
  (if chapitre ≠ [] then [chapitre] else []) ++
  (if sectionC ≠ [] ∧ ¬ (level = "titre" ∨ level = "chapitre")
   then [sectionC] else [])

/-- `" > ".join(...)`. -/
def joinSep (sep : Str) : List Str → Str
  | [] => []
  | [x] => x
  | x :: xs => x ++ sep ++ joinSep sep (xs)

/-- `f"[{context_prefix}]\n{chunk_text}" if context_prefix else
chunk_text`. -/
def enrich (ctx chunkText : Str) : Str :=
  if ctx ≠ [] then ('[' :: ctx) ++ (']' :: '\n' :: chunkText) else chunkText

def structGo (full : Str) (pm : List (Nat × Nat × Str)) :
    Str → Str → Str → List Delim → List Chunk
  | _, _, _, [] => []
  | titre, chapitre, sectionC, d :: rest =>
    let titre' := if d.level = "titre" then d.header else titre
    let chapitre' :=
      if d.level = "titre" then []
      else if d.level = "chapitre" then d.header else chapitre
    let sectionC' :=
      if d.level = "titre" then []
      else if d.level = "chapitre" then []
      else if d.level = "section" then d.header else sectionC
    let endPos := match rest with | d2 :: _ => d2.pos | [] => full.length
    let chunkText := strip (sliceN full d.pos endPos)
    if chunkText = [] then structGo full pm titre' chapitre' sectionC' rest
    else
      { text := enrich
          (joinSep " > ".toList (ctxParts titre' chapitre' sectionC' d.level))
          chunkText,
        metadata := ⟨titre', chapitre', sectionC',
          (if d.level = "article" then d.header else []),
          d.level, findPage d.pos pm 1, sourceOf pm, false⟩ } ::
        structGo full pm titre' chapitre' sectionC' rest

def splitByStructure (full : Str) (pm : List (Nat × Nat × Str)) : List Chunk :=
  if findDelims full = [] then []
  else structGo full pm [] [] [] (findDelims full)

/-! `_split_by_paragraphs` (lines 147-175): the splitter embeds
`re.split(r'\n\s*\n', full_text)` with Python's leftmost-match,
greedy-with-backtracking semantics: at a `\n`, the match succeeds when
the following whitespace run contains another `\n`, and extends to the
last such `\n`. -/

def lastNlIdxGo : Str → Nat → Option Nat → Option Nat
  | [], _, best => best
  | c :: r, i, best =>
    if c = '\n' then lastNlIdxGo r (i + 1) (some i)
    else lastNlIdxGo r (i + 1) best

def lastNlIdx (l : Str) : Option Nat := lastNlIdxGo l 0 none

/-- The scanning loop of the splitter.  A successful separator match
of length `j + 2` found at a `'\n'` emits the current piece and skips
the remaining `j + 1` matched characters, which the first argument
counts down (this replaces `rest.drop (j + 1)` so that the recursion
stays structural). -/
def pySplitGo : Nat → Str → Str → List Str
  | _ + 1, [], cur => [cur.reverse]
  | skip + 1, _ :: rest, cur => pySplitGo skip rest cur
  | 0, [], cur => [cur.reverse]
  | 0, c :: rest, cur =>
    if c = '\n' then
      match lastNlIdx (rest.takeWhile isWs) with
      | some j => cur.reverse :: pySplitGo (j + 1) rest []
      | none => pySplitGo 0 rest (c :: cur)
    else pySplitGo 0 rest (c :: cur)

def pySplitBlank (s : Str) : List Str := pySplitGo 0 s []

/-- The paragraph loop: note that the position counter advances by the
length of the *stripped* paragraph plus two, exactly as the source
does after reassigning `para = para.strip()`. -/
def paraGo (pm : List (Nat × Nat × Str)) : List Str → Nat → List Chunk
  | [], _ => []
  | p :: rest, pos =>
    if MIN_CHUNK_SIZE ≤ (strip p).length then
      ⟨strip p, ⟨[], [], [], [], "paragraphe", findPage pos pm 1,
        sourceOf pm, false⟩⟩ ::
        paraGo pm rest (pos + (strip p).length + 2)
    else paraGo pm rest (pos + (strip p).length + 2)

def splitByParagraphs (full : Str) (pm : List (Nat × Nat × Str)) :
    List Chunk :=
  paraGo pm (pySplitBlank full) 0

/-! `_split_long_chunk` (lines 178-215).  Python slice and `rfind`
indices may become negative here (the source computes
`start = end - CHUNK_OVERLAP` after an early sentence cut), so string
positions are embedded as `Int` with Python's slice-notation
normalization: a negative index counts from the end of the string and
is clamped at 0. -/

/-- Python slice-index normalization. -/
def pynorm (len : Nat) (i : Int) : Nat :=
  if i < 0 then (i + len).toNat else min i.toNat len

/-- Python slice `s[a:b]` for possibly negative `Int` indices. -/
def pysliceI (s : Str) (a b : Int) : Str :=
  (s.drop (pynorm s.length a)).take (pynorm s.length b - pynorm s.length a)

/-- The preferred separators, in the order the source tries them. -/
def SEPS : List Str := [['.', ' '], ['.', '\n'], [';', '\n'], ['\n', '\n'], ['\n']]

def findLastIdxGo (sep : Str) : Str → Nat → Option Nat → Option Nat
  | [], _, best => best
  | c :: r, i, best =>
    if sep.isPrefixOf (c :: r) then findLastIdxGo sep r (i + 1) (some i)
    else findLastIdxGo sep r (i + 1) best

/-- The index of the last occurrence of `sep` fully inside `w`
(`str.rfind` relative to the window). -/
def findLastIdx (sep w : Str) : Option Nat := findLastIdxGo sep w 0 none

/-- The `last_break` computation: fold over the separators, keeping
`pos + len(sep)` whenever the absolute occurrence index `pos` exceeds
the current value (which already includes a previous separator's
length — the comparison is exactly the source's). -/
def lastBreak (text : Str) (start e : Int) : Int :=
  SEPS.foldl (fun lb sep =>
    match findLastIdx sep (pysliceI text start e) with
    | some i =>
      if ((pynorm text.length start : Int) + i) > lb then
        ((pynorm text.length start : Int) + i) + sep.length
      else lb
    | none => lb) (-1)

def metaSub (m : ChunkMeta) : ChunkMeta := { m with subChunk := true }

/-- The cut position of one loop iteration: `end = start + MAX`, then
prefer the last sentence break when the window ends inside the text
and the break lies past `start`. -/
def splitEnd (text : Str) (start : Int) : Int :=
  if (start + (MAX_CHUNK_SIZE : Int)) < (text.length : Int) then
    if lastBreak text start (start + (MAX_CHUNK_SIZE : Int)) > start
    then lastBreak text start (start + (MAX_CHUNK_SIZE : Int))
    else start + (MAX_CHUNK_SIZE : Int)
  else start + (MAX_CHUNK_SIZE : Int)

/-- `start = end - CHUNK_OVERLAP if end < len(text) else end`. -/
def splitNext (text : Str) (start : Int) : Int :=
  if splitEnd text start < (text.length : Int) then
    splitEnd text start - (CHUNK_OVERLAP : Int)
  else splitEnd text start

/-- `sub_text = text[start:end].strip()`. -/
def splitSub (text : Str) (start : Int) : Str :=
  strip (pysliceI text start (splitEnd text start))

/-- The `while start < len(text)` loop, fuel-indexed: `none` means the
fuel ran out before the loop exited (the loop does not terminate on
every input, see `chunk_document_diverges`). -/
def splitLongGo (text : Str) (m : ChunkMeta) : Nat → Int → Option (List Chunk)
  | 0, _ => none
  | fuel + 1, start =>
    if start < (text.length : Int) then
      (splitLongGo text m fuel (splitNext text start)).map fun rest =>
        (if MIN_CHUNK_SIZE ≤ (splitSub text start).length then
          [⟨splitSub text start, metaSub m⟩] else []) ++ rest
    else some []

/-- `_split_long_chunk(chunk)`. -/
def splitLongChunk (fuel : Nat) (c : Chunk) : Option (List Chunk) :=
  splitLongGo c.text c.metadata fuel 0

/-- The post-processing loop of `chunk_document` (lines 52-58). -/
def postGo (fuel : Nat) : List Chunk → Option (List Chunk)
  | [] => some []
  | c :: rest =>
    if MAX_CHUNK_SIZE < c.text.length then
      match splitLongChunk fuel c with
      | none => none
      | some subs => (postGo fuel rest).map (subs ++ ·)
    else if MIN_CHUNK_SIZE ≤ c.text.length then
      (postGo fuel rest).map (c :: ·)
    else postGo fuel rest

/-- `chunk_document(pages)`, fuel-indexed through the long-chunk
splitting loop. -/
def chunkDocument (fuel : Nat) (pages : List PageRec) : Option (List Chunk) :=
  if (splitByStructure (buildFull pages).1 (buildFull pages).2).length < 3 then
    postGo fuel (splitByParagraphs (buildFull pages).1 (buildFull pages).2)
  else
    postGo fuel (splitByStructure (buildFull pages).1 (buildFull pages).2)

/-! Arithmetic of Python slices with possibly negative indices. -/

theorem pynorm_le_len (len : Nat) (i : Int) : pynorm len i ≤ len := by
  unfold pynorm
  by_cases h : i < 0
  · rw [if_pos h]; omega
  · rw [if_neg h]; omega

theorem pysliceI_length (s : Str) (a b : Int) :
    (pysliceI s a b).length = pynorm s.length b - pynorm s.length a := by
  unfold pysliceI
  rw [List.length_take, List.length_drop]
  have := pynorm_le_len s.length b
  omega

theorem pynorm_sub_le (len : Nat) (a b : Int) (M : Nat)
    (hab : b ≤ a + M) (hside : b < 0 → a < 0) :
    pynorm len b - pynorm len a ≤ M := by
  by_cases hb : b < 0
  · have ha : a < 0 := hside hb
    simp only [pynorm, if_pos hb, if_pos ha]
    omega
  · by_cases ha : a < 0
    · simp only [pynorm, if_neg hb, if_pos ha]
      omega
    · simp only [pynorm, if_neg hb, if_neg ha]
      omega

theorem findLastIdxGo_bound (sep : Str) :
    ∀ (w : Str) (i0 : Nat) (best : Option Nat) (i : Nat),
      (∀ j, best = some j → j + sep.length ≤ i0 + w.length) →
      findLastIdxGo sep w i0 best = some i → i + sep.length ≤ i0 + w.length := by
  intro w
  induction w with
  | nil =>
    intro i0 best i hbest h
    exact hbest i h
  | cons c r ih =>
    intro i0 best i hbest h
    by_cases hp : sep.isPrefixOf (c :: r) = true
    · rw [findLastIdxGo, if_pos hp] at h
      refine ih (i0 + 1) (some i0) i ?_ h |>.trans (by simp; omega)
      intro j hj
      have hle : sep.length ≤ (c :: r).length :=
        (List.isPrefixOf_iff_prefix.mp hp).length_le
      simp only [List.length_cons] at hle ⊢
      injection hj with hj
      omega
    · rw [findLastIdxGo, if_neg hp] at h
      refine ih (i0 + 1) best i ?_ h |>.trans (by simp; omega)
      intro j hj
      have := hbest j hj
      simp only [List.length_cons] at this ⊢
      omega

theorem findLastIdx_bound (sep w : Str) (i : Nat)
    (h : findLastIdx sep w = some i) : i + sep.length ≤ w.length := by
  have := findLastIdxGo_bound sep w 0 none i (by intro j hj; cases hj) h
  omega

theorem lastBreak_fold_cases (A B : Nat) (W : Str) (hW : W.length = B - A) :
    ∀ (seps : List Str) (lb : Int),
      (lb = -1 ∨ (0 ≤ lb ∧ lb ≤ (B : Int))) →
      (seps.foldl (fun lb sep =>
        match findLastIdx sep W with
        | some i => if ((A : Int) + i) > lb then ((A : Int) + i) + sep.length
                    else lb
        | none => lb) lb) = -1 ∨
      (0 ≤ (seps.foldl (fun lb sep =>
        match findLastIdx sep W with
        | some i => if ((A : Int) + i) > lb then ((A : Int) + i) + sep.length
                    else lb
        | none => lb) lb) ∧
       (seps.foldl (fun lb sep =>
        match findLastIdx sep W with
        | some i => if ((A : Int) + i) > lb then ((A : Int) + i) + sep.length
                    else lb
        | none => lb) lb) ≤ (B : Int)) := by
  intro seps
  induction seps with
  | nil => intro lb h; exact h
  | cons sep rest ih =>
    intro lb h
    simp only [List.foldl_cons]
    apply ih
    cases hf : findLastIdx sep W with
    | none => exact h
    | some i =>
      dsimp only
      by_cases hgt : ((A : Int) + i) > lb
      · rw [if_pos hgt]
        right
        have hb := findLastIdx_bound sep W i hf
        have hWne : W.length ≠ 0 := by
          intro h0
          rw [List.length_eq_zero] at h0
          rw [h0] at hf
          exact absurd hf (by simp [findLastIdx, findLastIdxGo])
        constructor
        · omega
        · rw [hW] at hb
          omega
      · rw [if_neg hgt]
        exact h

theorem lastBreak_cases (text : Str) (s e : Int) :
    lastBreak text s e = -1 ∨
    (0 ≤ lastBreak text s e ∧
     lastBreak text s e ≤ (pynorm text.length e : Int)) := by
  unfold lastBreak
  have hW : (pysliceI text s e).length =
      pynorm text.length e - pynorm text.length s := pysliceI_length text s e
  exact lastBreak_fold_cases (pynorm text.length s) (pynorm text.length e)
    (pysliceI text s e) hW SEPS (-1) (Or.inl rfl)

theorem splitEnd_ge (text : Str) (start : Int)
    (hinv : -((CHUNK_OVERLAP : Int) + 1) ≤ start) :
    -1 ≤ splitEnd text start := by
  unfold splitEnd
  by_cases h1 : (start + (MAX_CHUNK_SIZE : Int)) < (text.length : Int)
  · rw [if_pos h1]
    by_cases h2 : lastBreak text start (start + (MAX_CHUNK_SIZE : Int)) > start
    · rw [if_pos h2]
      rcases lastBreak_cases text start (start + (MAX_CHUNK_SIZE : Int)) with
        h | ⟨h, _⟩
      · omega
      · omega
    · rw [if_neg h2]
      simp only [MAX_CHUNK_SIZE] at *
      simp only [CHUNK_OVERLAP] at hinv
      omega
  · rw [if_neg h1]
    simp only [MAX_CHUNK_SIZE] at *
    simp only [CHUNK_OVERLAP] at hinv
    omega

theorem splitNext_inv (text : Str) (start : Int)
    (hinv : -((CHUNK_OVERLAP : Int) + 1) ≤ start) :
    -((CHUNK_OVERLAP : Int) + 1) ≤ splitNext text start := by
  unfold splitNext
  have hge := splitEnd_ge text start hinv
  by_cases h : splitEnd text start < (text.length : Int)
  · rw [if_pos h]
    omega
  · rw [if_neg h]
    omega

theorem splitSub_le_max (text : Str) (start : Int)
    (hinv : -((CHUNK_OVERLAP : Int) + 1) ≤ start) :
    (splitSub text start).length ≤ MAX_CHUNK_SIZE := by
  have hstrip := strip_length_le (pysliceI text start (splitEnd text start))
  have hslen := pysliceI_length text start (splitEnd text start)
  suffices h : pynorm text.length (splitEnd text start) -
      pynorm text.length start ≤ MAX_CHUNK_SIZE by
    unfold splitSub
    omega
  unfold splitEnd
  by_cases h1 : (start + (MAX_CHUNK_SIZE : Int)) < (text.length : Int)
  · by_cases h2 : lastBreak text start (start + (MAX_CHUNK_SIZE : Int)) > start
    · rw [if_pos h1, if_pos h2]
      rcases lastBreak_cases text start (start + (MAX_CHUNK_SIZE : Int)) with
        hlb | ⟨hlb0, hlbB⟩
      · -- no separator found but -1 > start, so start ≤ -2 and the
        -- window is at most the overlap tail of the text
        rw [hlb]
        apply pynorm_sub_le
        · simp only [MAX_CHUNK_SIZE]
          simp only [CHUNK_OVERLAP] at hinv
          omega
        · intro _
          omega
      · -- a separator was found: the cut is at most the window end
        have hmax := pynorm_sub_le text.length start
          (start + (MAX_CHUNK_SIZE : Int)) MAX_CHUNK_SIZE (by omega)
          (by intro hh; simp only [MAX_CHUNK_SIZE] at hh ⊢; omega)
        have e1 : pynorm text.length
            (lastBreak text start (start + (MAX_CHUNK_SIZE : Int))) ≤
            pynorm text.length (start + (MAX_CHUNK_SIZE : Int)) := by
          have hle := pynorm_le_len text.length
            (start + (MAX_CHUNK_SIZE : Int))
          unfold pynorm
          rw [if_neg (by omega)]
          by_cases hsm : (start + (MAX_CHUNK_SIZE : Int)) < 0
          · rw [if_pos hsm]
            unfold pynorm at hlbB
            rw [if_pos hsm] at hlbB
            omega
          · rw [if_neg hsm]
            unfold pynorm at hlbB
            rw [if_neg hsm] at hlbB
            omega
        omega
    · rw [if_pos h1, if_neg h2]
      apply pynorm_sub_le
      · omega
      · intro hh
        simp only [MAX_CHUNK_SIZE] at hh
        omega
  · rw [if_neg h1]
    apply pynorm_sub_le
    · omega
    · intro hh
      simp only [MAX_CHUNK_SIZE] at hh
      omega

theorem splitLongGo_bounds (text : Str) (m : ChunkMeta) :
    ∀ (fuel : Nat) (start : Int) (res : List Chunk),
      -((CHUNK_OVERLAP : Int) + 1) ≤ start →
      splitLongGo text m fuel start = some res →
      ∀ x ∈ res, (MIN_CHUNK_SIZE ≤ x.text.length ∧
        x.text.length ≤ MAX_CHUNK_SIZE) ∧ x.metadata = metaSub m := by
  intro fuel
  induction fuel with
  | zero => intro start res _ h; cases h
  | succ n ih =>
    intro start res hinv h
    rw [splitLongGo] at h
    by_cases hg : start < (text.length : Int)
    · rw [if_pos hg] at h
      rcases Option.map_eq_some'.mp h with ⟨rest, hrest, hres⟩
      subst hres
      intro x hx
      rcases List.mem_append.mp hx with hx' | hx'
      · by_cases hmin : MIN_CHUNK_SIZE ≤ (splitSub text start).length
        · rw [if_pos hmin] at hx'
          have hxe : x = ⟨splitSub text start, metaSub m⟩ :=
            List.mem_singleton.mp hx'
          subst hxe
          exact ⟨⟨hmin, splitSub_le_max text start hinv⟩, rfl⟩
        · rw [if_neg hmin] at hx'
          cases hx'
      · exact ih (splitNext text start) rest
          (splitNext_inv text start hinv) hrest x hx'
    · rw [if_neg hg] at h
      injection h with h
      subst h
      intro x hx
      cases hx

theorem postGo_bounds (fuel : Nat) :
    ∀ (chunks out : List Chunk), postGo fuel chunks = some out →
      ∀ c ∈ out, MIN_CHUNK_SIZE ≤ c.text.length ∧
        c.text.length ≤ MAX_CHUNK_SIZE := by
  intro chunks
  induction chunks with
  | nil =>
    intro out h
    injection h with h
    subst h
    intro c hc
    cases hc
  | cons c rest ih =>
    intro out h
    rw [postGo] at h
    by_cases h1 : MAX_CHUNK_SIZE < c.text.length
    · rw [if_pos h1] at h
      cases hsc : splitLongChunk fuel c with
      | none => rw [hsc] at h; cases h
      | some subs =>
        rw [hsc] at h
        rcases Option.map_eq_some'.mp h with ⟨o2, ho2, hout⟩
        subst hout
        intro x hx
        rcases List.mem_append.mp hx with hx' | hx'
        · exact (splitLongGo_bounds c.text c.metadata fuel 0 subs
            (by simp only [CHUNK_OVERLAP]; omega) hsc x hx').1
        · exact ih o2 ho2 x hx'
    · rw [if_neg h1] at h
      by_cases h2 : MIN_CHUNK_SIZE ≤ c.text.length
      · rw [if_pos h2] at h
        rcases Option.map_eq_some'.mp h with ⟨o2, ho2, hout⟩
        subst hout
        intro x hx
        rcases List.mem_cons.mp hx with hx' | hx'
        · subst hx'
          exact ⟨h2, by omega⟩
        · exact ih o2 ho2 x hx'
      · rw [if_neg h2] at h
        exact ih out h

/-- C2 (amended): every chunk `chunk_document` returns has text length
within `[MIN_CHUNK_SIZE, MAX_CHUNK_SIZE]`; fragments that would fall
below the minimum size are dropped and never emitted — dropping can
leave *zero* chunks, so no "at least one chunk" guarantee holds (see
`chunk_document_delim_no_chunk`). -/
theorem chunk_document_bounds (fuel : Nat) (pages : List PageRec)
    (out : List Chunk) (h : chunkDocument fuel pages = some out) :
    ∀ c ∈ out, MIN_CHUNK_SIZE ≤ c.text.length ∧
      c.text.length ≤ MAX_CHUNK_SIZE := by
  rw [chunkDocument] at h
  by_cases h1 : (splitByStructure (buildFull pages).1
      (buildFull pages).2).length < 3
  · rw [if_pos h1] at h
    exact postGo_bounds fuel _ out h
  · rw [if_neg h1] at h
    exact postGo_bounds fuel _ out h

def c2pages : List PageRec := [⟨"Article 1 x".toList, 1, "t".toList⟩]

/-- Counterexample to C2 as stated: this page sequence has exactly one
recognized structural delimiter (`Article 1 `), yet `chunk_document`
returns zero chunks — every candidate fragment falls below
`MIN_CHUNK_SIZE` and is dropped. -/
theorem chunk_document_delim_no_chunk :
    1 ≤ (findDelims (buildFull c2pages).1).length ∧
    chunkDocument 3 c2pages = some [] := by
  constructor
  · decide
  · decide

def w2pages : List PageRec := [⟨List.replicate 100 'x', 1, "t.pdf".toList⟩]

/-- Witness for the amended C2 at a concrete one-page document. -/
theorem chunk_document_bounds_witness :
    chunkDocument 3 w2pages = some [⟨List.replicate 100 'x',
      ⟨[], [], [], [], "paragraphe", 1, "t.pdf".toList, false⟩⟩] ∧
    ∀ c ∈ [(⟨List.replicate 100 'x',
      ⟨[], [], [], [], "paragraphe", 1, "t.pdf".toList, false⟩⟩ : Chunk)],
      MIN_CHUNK_SIZE ≤ c.text.length ∧ c.text.length ≤ MAX_CHUNK_SIZE := by
  have h : chunkDocument 3 w2pages = some [⟨List.replicate 100 'x',
      ⟨[], [], [], [], "paragraphe", 1, "t.pdf".toList, false⟩⟩] := by decide
  exact ⟨h, chunk_document_bounds 3 w2pages _ h⟩

/-! Soundness of the line/offset scan: each recorded line is found at
its recorded offset of the full text, and offsets of later lines lie
past the current line and its newline.  This is what rules out empty
structural chunks: every delimiter's chunk spans at least its own
header line, whose stripped text is nonempty because it matched a
pattern. -/

def joinNl : List Str → Str
  | [] => []
  | [l] => l
  | l :: ls => l ++ '\n' :: joinNl ls

theorem splitNl_ne_nil (s : Str) : splitNl s ≠ [] := by
  cases s with
  | nil => simp [splitNl]
  | cons c r =>
    rw [splitNl]
    by_cases h : c = '\n'
    · rw [if_pos h]; simp
    · rw [if_neg h]
      cases splitNl r with
      | nil => simp
      | cons l ls => simp

theorem joinNl_splitNl (s : Str) : joinNl (splitNl s) = s := by
  induction s with
  | nil => rfl
  | cons c r ih =>
    rw [splitNl]
    by_cases h : c = '\n'
    · rw [if_pos h]
      rcases hsp : splitNl r with _ | ⟨l, ls⟩
      · exact absurd hsp (splitNl_ne_nil r)
      · rw [hsp] at ih
        rw [h]
        show ([] : Str) ++ '\n' :: joinNl (l :: ls) = '\n' :: r
        rw [List.nil_append, ih]
    · rw [if_neg h]
      rcases hsp : splitNl r with _ | ⟨l, ls⟩
      · exact absurd hsp (splitNl_ne_nil r)
      · rw [hsp] at ih
        cases ls with
        | nil =>
          show c :: l = c :: r
          have ih' : l = r := ih
          rw [ih']
        | cons l2 ls2 =>
          show (c :: l) ++ '\n' :: joinNl (l2 :: ls2) = c :: r
          have ih' : l ++ '\n' :: joinNl (l2 :: ls2) = r := ih
          rw [List.cons_append, ih']

theorem withPos_pos_le :
    ∀ (ls : List Str) (p : Nat) (l : Str) (q : Nat),
      (l, q) ∈ withPos ls p → p ≤ q := by
  intro ls
  induction ls with
  | nil => intro p l q h; cases h
  | cons l0 ls ih =>
    intro p l q h
    rcases List.mem_cons.mp h with h' | h'
    · injection h' with _ h2
      omega
    · have := ih (p + l0.length + 1) l q h'
      omega

theorem withPos_sound :
    ∀ (ls : List Str) (p : Nat) (l : Str) (q : Nat),
      (l, q) ∈ withPos ls p → l.IsPrefix ((joinNl ls).drop (q - p)) := by
  intro ls
  induction ls with
  | nil => intro p l q h; cases h
  | cons l0 ls ih =>
    intro p l q h
    rcases List.mem_cons.mp h with h' | h'
    · injection h' with h1 h2
      subst h1
      subst h2
      simp only [Nat.sub_self, List.drop_zero]
      cases ls with
      | nil => exact List.prefix_refl l
      | cons l1 ls1 =>
        show l <+: l ++ '\n' :: joinNl (l1 :: ls1)
        exact List.prefix_append l _
    · have hle := withPos_pos_le ls (p + l0.length + 1) l q h'
      have hih := ih (p + l0.length + 1) l q h'
      cases ls with
      | nil => cases h'
      | cons l1 ls1 =>
        show l <+: (l0 ++ '\n' :: joinNl (l1 :: ls1)).drop (q - p)
        have harith : q - p =
            l0.length + ((q - (p + l0.length + 1)) + 1) := by
          omega
        rw [harith, List.drop_append, List.drop_succ_cons]
        exact hih

theorem withPos_pairwise :
    ∀ (ls : List Str) (p : Nat),
      (withPos ls p).Pairwise (fun a b => a.2 + a.1.length + 1 ≤ b.2) := by
  intro ls
  induction ls with
  | nil => intro p; simp [withPos]
  | cons l0 ls ih =>
    intro p
    rw [withPos]
    refine List.pairwise_cons.mpr ⟨?_, ih (p + l0.length + 1)⟩
    intro b hb
    have h := withPos_pos_le ls (p + l0.length + 1) b.1 b.2 hb
    show p + l0.length + 1 ≤ b.2
    omega

theorem mem_dropWhile_of_not (p : Char → Bool) :
    ∀ (l : Str) (c : Char), c ∈ l → p c = false → c ∈ l.dropWhile p := by
  intro l
  induction l with
  | nil => intro c hc; cases hc
  | cons a l ih =>
    intro c hc hpc
    rw [List.dropWhile_cons]
    by_cases hpa : p a = true
    · rw [if_pos hpa]
      rcases List.mem_cons.mp hc with h' | h'
      · rw [h'] at hpc; rw [hpc] at hpa; cases hpa
      · exact ih c h' hpc
    · rw [if_neg hpa]
      exact hc

theorem strip_eq_nil_iff (l : Str) :
    strip l = [] ↔ ∀ c ∈ l, isWs c = true := by
  unfold strip
  rw [List.reverse_eq_nil_iff, List.dropWhile_eq_nil_iff]
  constructor
  · intro h c hc
    by_cases hw : isWs c = true
    · exact hw
    · have h1 : c ∈ l.dropWhile isWs :=
        mem_dropWhile_of_not isWs l c hc (by simpa using hw)
      have h2 : c ∈ (l.dropWhile isWs).reverse := List.mem_reverse.mpr h1
      exact h c h2
  · intro h c hc
    have h1 : c ∈ l.dropWhile isWs := List.mem_reverse.mp hc
    exact h c ((List.dropWhile_sublist isWs).subset h1)

theorem strip_ne_nil_of_mem {l : Str} {c : Char} (hc : c ∈ l)
    (hw : isWs c = false) : strip l ≠ [] := by
  intro h
  have := (strip_eq_nil_iff l).mp h c hc
  rw [hw] at this
  cases this

theorem strip_ne_nil_elim {l : Str} (h : strip l ≠ []) :
    ∃ c ∈ l, isWs c = false := by
  by_contra hall
  push_neg at hall
  apply h
  rw [strip_eq_nil_iff]
  intro c hc
  by_cases hw : isWs c = true
  · exact hw
  · exact absurd (by simpa using hw) (by
      intro hh
      exact absurd hh (by simpa using hall c hc))

theorem matchLine_ne_nil {l : Str} {lvl : String}
    (h : matchLine l = some lvl) : l ≠ [] := by
  intro he
  subst he
  rw [matchLine] at h
  simp only [matchTitre, matchChapitre, matchSection, matchSousSection,
    matchArticle, eatLitCI] at h
  simp at h

theorem matchLine_not_para {l : Str} {lvl : String}
    (h : matchLine l = some lvl) : lvl ≠ "paragraphe" := by
  rw [matchLine] at h
  split_ifs at h <;> injection h with h <;> subst h <;> decide

theorem mem_of_mem_strip {l : Str} {c : Char} (h : c ∈ strip l) : c ∈ l := by
  unfold strip at h
  have h1 := List.mem_reverse.mp h
  have h2 := (List.dropWhile_sublist isWs).subset h1
  have h3 := List.mem_reverse.mp h2
  exact (List.dropWhile_sublist isWs).subset h3

/-- Each line recorded by the offset scan is a prefix of the full text
at its offset. -/
theorem line_prefix_at (full : Str) (a : Str × Nat)
    (ha : a ∈ withPos (splitNl full) 0) : a.1.IsPrefix (full.drop a.2) := by
  have h := withPos_sound (splitNl full) 0 a.1 a.2 ha
  rw [joinNl_splitNl] at h
  simpa using h

/-- Between one delimiter and any later position past its header line,
the slice strips to something nonempty (the header line matched a
pattern, so it contains a non-blank character). -/
theorem findDelims_pairwise (full : Str) :
    (findDelims full).Pairwise
      (fun d d2 => strip (sliceN full d.pos d2.pos) ≠ []) := by
  rw [findDelims, List.pairwise_filterMap]
  refine (withPos_pairwise (splitNl full) 0).imp_of_mem ?_
  intro a b ha hb hrel d hd d2 hd2
  rw [Option.mem_def] at hd hd2
  rcases Option.map_eq_some'.mp hd with ⟨lvl, hm, hde⟩
  rcases Option.map_eq_some'.mp hd2 with ⟨lvl2, hm2, hde2⟩
  subst hde
  subst hde2
  simp only
  have hne : strip a.1 ≠ [] := matchLine_ne_nil hm
  rcases strip_ne_nil_elim hne with ⟨c, hcl, hw⟩
  rcases line_prefix_at full a ha with ⟨t, ht⟩
  have hslice : sliceN full a.2 b.2 =
      a.1 ++ t.take (b.2 - a.2 - a.1.length) := by
    set k := b.2 - a.2 - a.1.length with hk
    have h1 : b.2 - a.2 = a.1.length + k := by omega
    rw [sliceN, ← ht, h1, List.take_append]
  refine strip_ne_nil_of_mem ?_ hw
  rw [hslice]
  exact List.mem_append_left _ hcl

/-- Every delimiter's final slice (up to the end of the text) strips
to something nonempty. -/
theorem findDelims_last (full : Str) :
    ∀ d ∈ findDelims full, strip (sliceN full d.pos full.length) ≠ [] := by
  intro d hd
  rw [findDelims] at hd
  rcases List.mem_filterMap.mp hd with ⟨a, ha, hda⟩
  rcases Option.map_eq_some'.mp hda with ⟨lvl, hm, hde⟩
  subst hde
  simp only
  have hne : strip a.1 ≠ [] := matchLine_ne_nil hm
  rcases strip_ne_nil_elim hne with ⟨c, hcs, hw⟩
  have hcl : c ∈ a.1 := hcs
  have hpre := line_prefix_at full a ha
  have hslice : sliceN full a.2 full.length = full.drop a.2 := by
    rw [sliceN]
    have hd2 : (full.drop a.2).length = full.length - a.2 :=
      List.length_drop a.2 full
    rw [← hd2, List.take_length]
  refine strip_ne_nil_of_mem ?_ hw
  rw [hslice]
  exact hpre.subset hcl

theorem structGo_nil (full : Str) (pm : List (Nat × Nat × Str))
    (t c s : Str) : structGo full pm t c s [] = [] := rfl

theorem structGo_length_le (full : Str) (pm : List (Nat × Nat × Str)) :
    ∀ (delims : List Delim) (t c s : Str),
      (structGo full pm t c s delims).length ≤ delims.length := by
  intro delims
  induction delims with
  | nil => intro t c s; simp [structGo_nil]
  | cons d rest ih =>
    intro t c s
    rw [structGo.eq_def]
    dsimp only
    split
    · have := ih (if d.level = "titre" then d.header else t)
        (if d.level = "titre" then []
         else if d.level = "chapitre" then d.header else c)
        (if d.level = "titre" then []
         else if d.level = "chapitre" then []
         else if d.level = "section" then d.header else s)
      simp only [List.length_cons]
      omega
    · simp only [List.length_cons]
      have := ih (if d.level = "titre" then d.header else t)
        (if d.level = "titre" then []
         else if d.level = "chapitre" then d.header else c)
        (if d.level = "titre" then []
         else if d.level = "chapitre" then []
         else if d.level = "section" then d.header else s)
      omega

theorem structGo_length_eq (full : Str) (pm : List (Nat × Nat × Str)) :
    ∀ (delims : List Delim) (t c s : Str),
      delims.Chain' (fun d d2 => strip (sliceN full d.pos d2.pos) ≠ []) →
      (∀ d ∈ delims, strip (sliceN full d.pos full.length) ≠ []) →
      (structGo full pm t c s delims).length = delims.length := by
  intro delims
  induction delims with
  | nil => intro t c s _ _; simp [structGo_nil]
  | cons d rest ih =>
    intro t c s hchain hlast
    rw [structGo.eq_def]
    cases rest with
    | nil =>
      dsimp only
      have hne : strip (sliceN full d.pos full.length) ≠ [] :=
        hlast d (List.mem_cons_self d [])
      rw [if_neg hne]
      simp [structGo_nil]
    | cons d2 rest2 =>
      dsimp only
      have hne : strip (sliceN full d.pos d2.pos) ≠ [] :=
        (List.chain'_cons.mp hchain).1
      rw [if_neg hne]
      simp only [List.length_cons]
      rw [ih _ _ _ (List.chain'_cons.mp hchain).2
        (fun x hx => hlast x (List.mem_cons_of_mem d hx))]
      simp

theorem structGo_levels (full : Str) (pm : List (Nat × Nat × Str)) :
    ∀ (delims : List Delim) (t c s : Str),
      ∀ x ∈ structGo full pm t c s delims,
        ∃ d ∈ delims, x.metadata.level = d.level := by
  intro delims
  induction delims with
  | nil => intro t c s x hx; cases hx
  | cons d rest ih =>
    intro t c s x hx
    rw [structGo.eq_def] at hx
    dsimp only at hx
    split at hx
    · rcases ih _ _ _ x hx with ⟨d', hd', he⟩
      exact ⟨d', List.mem_cons_of_mem d hd', he⟩
    · rcases List.mem_cons.mp hx with hx' | hx'
      · subst hx'
        exact ⟨d, List.mem_cons_self d rest, rfl⟩
      · rcases ih _ _ _ x hx' with ⟨d', hd', he⟩
        exact ⟨d', List.mem_cons_of_mem d hd', he⟩

theorem findDelims_levels (full : Str) :
    ∀ d ∈ findDelims full, d.level ≠ "paragraphe" := by
  intro d hd
  rw [findDelims] at hd
  rcases List.mem_filterMap.mp hd with ⟨a, _, hda⟩
  rcases Option.map_eq_some'.mp hda with ⟨lvl, hm, hde⟩
  subst hde
  exact matchLine_not_para hm

theorem paraGo_meta (pm : List (Nat × Nat × Str)) :
    ∀ (ps : List Str) (pos : Nat), ∀ x ∈ paraGo pm ps pos,
      x.metadata.level = "paragraphe" ∧ x.metadata.titre = [] ∧
      x.metadata.chapitre = [] ∧ x.metadata.sectionM = [] ∧
      x.metadata.article = [] := by
  intro ps
  induction ps with
  | nil => intro pos x hx; cases hx
  | cons p rest ih =>
    intro pos x hx
    rw [paraGo] at hx
    by_cases h : MIN_CHUNK_SIZE ≤ (strip p).length
    · rw [if_pos h] at hx
      rcases List.mem_cons.mp hx with hx' | hx'
      · subst hx'
        exact ⟨rfl, rfl, rfl, rfl, rfl⟩
      · exact ih _ x hx'
    · rw [if_neg h] at hx
      exact ih _ x hx

theorem postGo_meta (fuel : Nat) :
    ∀ (chunks out : List Chunk), postGo fuel chunks = some out →
      ∀ x ∈ out, ∃ c ∈ chunks,
        x.metadata = c.metadata ∨ x.metadata = metaSub c.metadata := by
  intro chunks
  induction chunks with
  | nil =>
    intro out h
    injection h with h
    subst h
    intro x hx
    cases hx
  | cons c rest ih =>
    intro out h
    rw [postGo] at h
    by_cases h1 : MAX_CHUNK_SIZE < c.text.length
    · rw [if_pos h1] at h
      cases hsc : splitLongChunk fuel c with
      | none => rw [hsc] at h; cases h
      | some subs =>
        rw [hsc] at h
        rcases Option.map_eq_some'.mp h with ⟨o2, ho2, hout⟩
        subst hout
        intro x hx
        rcases List.mem_append.mp hx with hx' | hx'
        · refine ⟨c, List.mem_cons_self c rest, Or.inr ?_⟩
          exact (splitLongGo_bounds c.text c.metadata fuel 0 subs
            (by simp only [CHUNK_OVERLAP]; omega) hsc x hx').2
        · rcases ih o2 ho2 x hx' with ⟨c', hc', he⟩
          exact ⟨c', List.mem_cons_of_mem c hc', he⟩
    · rw [if_neg h1] at h
      by_cases h2 : MIN_CHUNK_SIZE ≤ c.text.length
      · rw [if_pos h2] at h
        rcases Option.map_eq_some'.mp h with ⟨o2, ho2, hout⟩
        subst hout
        intro x hx
        rcases List.mem_cons.mp hx with hx' | hx'
        · exact ⟨c, List.mem_cons_self c rest, Or.inl (by rw [hx'])⟩
        · rcases ih o2 ho2 x hx' with ⟨c', hc', he⟩
          exact ⟨c', List.mem_cons_of_mem c hc', he⟩
      · rw [if_neg h2] at h
        intro x hx
        rcases ih out h x hx with ⟨c', hc', he⟩
        exact ⟨c', List.mem_cons_of_mem c hc', he⟩

/-- C5: with fewer than 3 recognized structural delimiters,
`chunk_document` uses the paragraph fallback exclusively — every
returned chunk has `level = "paragraphe"` and empty `titre`,
`chapitre`, `section` and `article` fields; with 3 or more recognized
delimiters the structural path is used and no `"paragraphe"`-level
chunk is emitted. -/
theorem chunk_document_fallback (fuel : Nat) (pages : List PageRec)
    (out : List Chunk) (h : chunkDocument fuel pages = some out) :
    ((findDelims (buildFull pages).1).length < 3 →
      ∀ c ∈ out, c.metadata.level = "paragraphe" ∧ c.metadata.titre = [] ∧
        c.metadata.chapitre = [] ∧ c.metadata.sectionM = [] ∧
        c.metadata.article = []) ∧
    (3 ≤ (findDelims (buildFull pages).1).length →
      ∀ c ∈ out, c.metadata.level ≠ "paragraphe") := by
  constructor
  · intro hlt c hc
    have hstruct : (splitByStructure (buildFull pages).1
        (buildFull pages).2).length < 3 := by
      rw [splitByStructure]
      by_cases hd : findDelims (buildFull pages).1 = []
      · rw [if_pos hd]; simp
      · rw [if_neg hd]
        have := structGo_length_le (buildFull pages).1 (buildFull pages).2
          (findDelims (buildFull pages).1) [] [] []
        omega
    rw [chunkDocument, if_pos hstruct] at h
    rcases postGo_meta fuel _ out h c hc with ⟨c', hc', he⟩
    have hm := paraGo_meta (buildFull pages).2 _ 0 c' hc'
    rcases he with he | he
    · rw [he]
      exact hm
    · rw [he]
      exact hm
  · intro hge c hc
    have hne : findDelims (buildFull pages).1 ≠ [] := by
      intro he
      rw [he] at hge
      simp at hge
    have hstruct : (splitByStructure (buildFull pages).1
        (buildFull pages).2).length = (findDelims (buildFull pages).1).length := by
      rw [splitByStructure, if_neg hne]
      exact structGo_length_eq (buildFull pages).1 (buildFull pages).2
        (findDelims (buildFull pages).1) [] [] []
        ((findDelims_pairwise (buildFull pages).1).chain')
        (findDelims_last (buildFull pages).1)
    rw [chunkDocument, if_neg (by omega)] at h
    rcases postGo_meta fuel _ out h c hc with ⟨c', hc', he⟩
    have hsl : ∃ d ∈ findDelims (buildFull pages).1,
        c'.metadata.level = d.level := by
      rw [splitByStructure, if_neg hne] at hc'
      exact structGo_levels (buildFull pages).1 (buildFull pages).2
        (findDelims (buildFull pages).1) [] [] [] c' hc'
    rcases hsl with ⟨d, hd, hlev⟩
    have hnp := findDelims_levels (buildFull pages).1 d hd
    rcases he with he | he
    · rw [he, hlev]
      exact hnp
    · rw [he]
      show c'.metadata.level ≠ "paragraphe"
      rw [hlev]
      exact hnp

def w5pages : List PageRec := [⟨List.replicate 110 'y', 1, "p.pdf".toList⟩]

/-- Witness for C5 at a concrete delimiter-free page. -/
theorem chunk_document_fallback_witness :
    chunkDocument 3 w5pages = some [⟨List.replicate 110 'y',
      ⟨[], [], [], [], "paragraphe", 1, "p.pdf".toList, false⟩⟩] ∧
    (((findDelims (buildFull w5pages).1).length < 3 →
      ∀ c ∈ [(⟨List.replicate 110 'y',
        ⟨[], [], [], [], "paragraphe", 1, "p.pdf".toList, false⟩⟩ : Chunk)],
        c.metadata.level = "paragraphe" ∧ c.metadata.titre = [] ∧
        c.metadata.chapitre = [] ∧ c.metadata.sectionM = [] ∧
        c.metadata.article = []) ∧
     (3 ≤ (findDelims (buildFull w5pages).1).length →
      ∀ c ∈ [(⟨List.replicate 110 'y',
        ⟨[], [], [], [], "paragraphe", 1, "p.pdf".toList, false⟩⟩ : Chunk)],
        c.metadata.level ≠ "paragraphe")) := by
  have h : chunkDocument 3 w5pages = some [⟨List.replicate 110 'y',
      ⟨[], [], [], [], "paragraphe", 1, "p.pdf".toList, false⟩⟩] := by decide
  exact ⟨h, chunk_document_fallback 3 w5pages _ h⟩

/-! A page on which `_split_long_chunk` loops forever: the text
`"ab. "` followed by 2000 `'x'` characters.  The first window cuts at
the sentence break (position 4), the overlap rule then rewinds the
start to `4 - 200 = -196`; from there Python slice normalization makes
every window empty, `rfind` returns `-1`, and `-1 > start` keeps
resetting `end` to `-1` and `start` to `-1 - 200 = -201`, a fixed
point of the loop. -/

def c3body : Str := 'a' :: 'b' :: '.' :: ' ' :: List.replicate 2000 'x'

def c3pages : List PageRec := [⟨c3body, 1, "doc.pdf".toList⟩]

def c3meta : ChunkMeta :=
  ⟨[], [], [], [], "paragraphe", 1, "doc.pdf".toList, false⟩

theorem c3body_length : c3body.length = 2004 := by
  simp only [c3body, List.length_cons, List.length_replicate]

theorem dropWhile_not_head (p : Char → Bool) (c : Char) (l : Str)
    (h : p c = false) : List.dropWhile p (c :: l) = c :: l := by
  rw [List.dropWhile_cons, h]
  simp

theorem c3body_reverse :
    c3body.reverse = List.replicate 2000 'x' ++ [' ', '.', 'b', 'a'] := by
  simp only [c3body, List.reverse_cons, List.reverse_replicate,
    List.append_assoc, List.cons_append, List.nil_append]

theorem replicate_2000_x :
    List.replicate 2000 'x' = 'x' :: List.replicate 1999 'x' := by
  rw [show (2000 : Nat) = 1999 + 1 from rfl, List.replicate_succ]

theorem c3_strip : strip c3body = c3body := by
  have h1 : List.dropWhile isWs c3body = c3body := by
    rw [show c3body = 'a' :: ('b' :: '.' :: ' ' :: List.replicate 2000 'x')
      from rfl]
    exact dropWhile_not_head _ _ _ (by decide)
  have h2 : List.dropWhile isWs c3body.reverse = c3body.reverse := by
    rw [c3body_reverse, replicate_2000_x, List.cons_append]
    exact dropWhile_not_head _ _ _ (by decide)
  rw [strip, h1, h2, List.reverse_reverse]

theorem c3body_no_nl : ∀ c ∈ c3body, c ≠ '\n' := by
  intro c hc
  simp only [c3body, List.mem_cons, List.mem_replicate] at hc
  rcases hc with h | h | h | h | ⟨_, h⟩ <;> subst h <;> decide

theorem splitNl_append_no_nl :
    ∀ (l : Str), (∀ c ∈ l, c ≠ '\n') →
      ∀ (s l0 : Str) (rest : List Str), splitNl s = l0 :: rest →
        splitNl (l ++ s) = (l ++ l0) :: rest := by
  intro l
  induction l with
  | nil =>
    intro _ s l0 rest h
    simpa using h
  | cons c l ih =>
    intro hno s l0 rest h
    rw [List.cons_append, splitNl,
      if_neg (hno c (List.mem_cons_self c l)),
      ih (fun x hx => hno x (List.mem_cons_of_mem c hx)) s l0 rest h]
    rfl

theorem c3_splitNl :
    splitNl (c3body ++ ['\n', '\n']) = [c3body, [], []] := by
  have h := splitNl_append_no_nl c3body c3body_no_nl ['\n', '\n']
    [] [[], []] (by decide)
  simpa using h

theorem c3_matchLine : matchLine c3body = none := by decide

theorem c3_findDelims : findDelims (c3body ++ ['\n', '\n']) = [] := by
  have hm0 : matchLine (strip ([] : Str)) = none := by decide
  rw [findDelims, c3_splitNl, withPos, withPos, withPos, withPos]
  simp [c3_strip, c3_matchLine, hm0]

theorem c3_structEmpty :
    splitByStructure (c3body ++ ['\n', '\n'])
      [(0, 1, "doc.pdf".toList)] = [] := by
  rw [splitByStructure, if_pos c3_findDelims]

theorem pySplitGo_append_no_nl :
    ∀ (l : Str), (∀ c ∈ l, c ≠ '\n') → ∀ (s cur : Str),
      pySplitGo 0 (l ++ s) cur = pySplitGo 0 s (l.reverse ++ cur) := by
  intro l
  induction l with
  | nil =>
    intro _ s cur
    simp
  | cons c l ih =>
    intro hno s cur
    rw [List.cons_append, pySplitGo,
      if_neg (hno c (List.mem_cons_self c l)),
      ih (fun x hx => hno x (List.mem_cons_of_mem c hx)) s (c :: cur),
      List.reverse_cons, List.append_assoc]
    rfl

theorem pySplitGo_nl2 (cur : Str) :
    pySplitGo 0 ['\n', '\n'] cur = [cur.reverse, []] := rfl

theorem c3_pySplit :
    pySplitBlank (c3body ++ ['\n', '\n']) = [c3body, []] := by
  rw [pySplitBlank, pySplitGo_append_no_nl c3body c3body_no_nl,
    pySplitGo_nl2, List.append_nil, List.reverse_reverse]

theorem c3_paras :
    splitByParagraphs (c3body ++ ['\n', '\n'])
      [(0, 1, "doc.pdf".toList)] = [⟨c3body, c3meta⟩] := by
  have hmin : MIN_CHUNK_SIZE ≤ (strip c3body).length := by
    rw [c3_strip, c3body_length]
    decide
  have hnot : ¬ MIN_CHUNK_SIZE ≤ (strip ([] : Str)).length := by decide
  rw [splitByParagraphs, c3_pySplit, paraGo, if_pos hmin, paraGo,
    if_neg hnot, paraGo, c3_strip]
  rfl

theorem c3_win0 : pysliceI c3body 0 1500 =
    'a' :: 'b' :: '.' :: ' ' :: List.replicate 1496 'x' := by
  rw [pysliceI, c3body_length,
    show pynorm 2004 0 = 0 from by decide,
    show pynorm 2004 1500 = 1500 from by decide,
    List.drop_zero, Nat.sub_zero,
    show c3body = 'a' :: 'b' :: '.' :: ' ' :: List.replicate 2000 'x'
      from rfl,
    show (1500 : Nat) = 1499 + 1 from rfl, List.take_succ_cons,
    show (1499 : Nat) = 1498 + 1 from rfl, List.take_succ_cons,
    show (1498 : Nat) = 1497 + 1 from rfl, List.take_succ_cons,
    show (1497 : Nat) = 1496 + 1 from rfl, List.take_succ_cons,
    List.take_replicate, show min 1496 2000 = 1496 from by decide]

theorem findLastIdxGo_cons_pos (sep : Str) (c : Char) (r : Str) (i : Nat)
    (best : Option Nat) (h : sep.isPrefixOf (c :: r) = true) :
    findLastIdxGo sep (c :: r) i best =
      findLastIdxGo sep r (i + 1) (some i) := by
  rw [findLastIdxGo, if_pos h]

theorem findLastIdxGo_cons_neg (sep : Str) (c : Char) (r : Str) (i : Nat)
    (best : Option Nat) (h : sep.isPrefixOf (c :: r) = false) :
    findLastIdxGo sep (c :: r) i best = findLastIdxGo sep r (i + 1) best := by
  rw [findLastIdxGo, if_neg (by simp [h])]

theorem findLastIdxGo_replicate (c0 : Char) (s0 : Str) (a : Char)
    (h : (c0 == a) = false) :
    ∀ (n i : Nat) (best : Option Nat),
      findLastIdxGo (c0 :: s0) (List.replicate n a) i best = best := by
  intro n
  induction n with
  | zero => intro i best; rfl
  | succ n ih =>
    intro i best
    rw [List.replicate_succ,
      findLastIdxGo_cons_neg _ _ _ _ _ (by simp [List.isPrefixOf, h])]
    exact ih (i + 1) best

theorem findLastIdxGo_skip (c0 : Char) (s0 : Str) (a : Char)
    (h : (c0 == a) = false) :
    ∀ (n : Nat) (l : Str) (i : Nat) (best : Option Nat),
      findLastIdxGo (c0 :: s0) (List.replicate n a ++ l) i best =
        findLastIdxGo (c0 :: s0) l (i + n) best := by
  intro n
  induction n with
  | zero => intro l i best; simp
  | succ n ih =>
    intro l i best
    rw [List.replicate_succ, List.cons_append,
      findLastIdxGo_cons_neg _ _ _ _ _ (by simp [List.isPrefixOf, h]),
      ih l (i + 1) best]
    have harith : i + 1 + n = i + (n + 1) := by omega
    rw [harith]

theorem c3_find1 : findLastIdx ['.', ' ']
    ('a' :: 'b' :: '.' :: ' ' :: List.replicate 1496 'x') = some 2 := by
  rw [findLastIdx,
    findLastIdxGo_cons_neg _ _ _ _ _ (by decide),
    findLastIdxGo_cons_neg _ _ _ _ _ (by decide),
    findLastIdxGo_cons_pos _ _ _ _ _ (by decide),
    findLastIdxGo_cons_neg _ _ _ _ _ (by decide),
    findLastIdxGo_replicate _ _ _ (by decide)]

theorem c3_find2 : findLastIdx ['.', '\n']
    ('a' :: 'b' :: '.' :: ' ' :: List.replicate 1496 'x') = none := by
  rw [findLastIdx,
    findLastIdxGo_cons_neg _ _ _ _ _ (by decide),
    findLastIdxGo_cons_neg _ _ _ _ _ (by decide),
    findLastIdxGo_cons_neg _ _ _ _ _ (by decide),
    findLastIdxGo_cons_neg _ _ _ _ _ (by decide),
    findLastIdxGo_replicate _ _ _ (by decide)]

theorem c3_find3 : findLastIdx [';', '\n']
    ('a' :: 'b' :: '.' :: ' ' :: List.replicate 1496 'x') = none := by
  rw [findLastIdx,
    findLastIdxGo_cons_neg _ _ _ _ _ (by decide),
    findLastIdxGo_cons_neg _ _ _ _ _ (by decide),
    findLastIdxGo_cons_neg _ _ _ _ _ (by decide),
    findLastIdxGo_cons_neg _ _ _ _ _ (by decide),
    findLastIdxGo_replicate _ _ _ (by decide)]

theorem c3_find4 : findLastIdx ['\n', '\n']
    ('a' :: 'b' :: '.' :: ' ' :: List.replicate 1496 'x') = none := by
  rw [findLastIdx,
    findLastIdxGo_cons_neg _ _ _ _ _ (by decide),
    findLastIdxGo_cons_neg _ _ _ _ _ (by decide),
    findLastIdxGo_cons_neg _ _ _ _ _ (by decide),
    findLastIdxGo_cons_neg _ _ _ _ _ (by decide),
    findLastIdxGo_replicate _ _ _ (by decide)]

theorem c3_find5 : findLastIdx ['\n']
    ('a' :: 'b' :: '.' :: ' ' :: List.replicate 1496 'x') = none := by
  rw [findLastIdx,
    findLastIdxGo_cons_neg _ _ _ _ _ (by decide),
    findLastIdxGo_cons_neg _ _ _ _ _ (by decide),
    findLastIdxGo_cons_neg _ _ _ _ _ (by decide),
    findLastIdxGo_cons_neg _ _ _ _ _ (by decide),
    findLastIdxGo_replicate _ _ _ (by decide)]

theorem c3_lastBreak0 : lastBreak c3body 0 1500 = 4 := by
  simp only [lastBreak, SEPS, List.foldl_cons, List.foldl_nil, c3_win0,
    c3_find1, c3_find2, c3_find3, c3_find4, c3_find5, c3body_length]
  norm_num [pynorm]

theorem c3_splitEnd0 : splitEnd c3body 0 = 4 := by
  rw [splitEnd, c3body_length]
  norm_num [MAX_CHUNK_SIZE]
  rw [c3_lastBreak0]
  norm_num

theorem c3_next0 : splitNext c3body 0 = -196 := by
  rw [splitNext, c3_splitEnd0, c3body_length]
  norm_num [CHUNK_OVERLAP]

theorem c3_win196 : pysliceI c3body (-196) 1304 = [] := by
  rw [pysliceI, c3body_length,
    show pynorm 2004 (-196) = 1808 from by decide,
    show pynorm 2004 1304 = 1304 from by decide,
    show (1304 : Nat) - 1808 = 0 from by decide, List.take_zero]

theorem c3_lastBreak196 : lastBreak c3body (-196) 1304 = -1 := by
  simp only [lastBreak, SEPS, List.foldl_cons, List.foldl_nil, c3_win196]
  rfl

theorem c3_splitEnd196 : splitEnd c3body (-196) = -1 := by
  rw [splitEnd, c3body_length]
  norm_num [MAX_CHUNK_SIZE]
  rw [c3_lastBreak196]
  norm_num

theorem c3_next196 : splitNext c3body (-196) = -201 := by
  rw [splitNext, c3_splitEnd196, c3body_length]
  norm_num [CHUNK_OVERLAP]

theorem c3_win201 : pysliceI c3body (-201) 1299 = [] := by
  rw [pysliceI, c3body_length,
    show pynorm 2004 (-201) = 1803 from by decide,
    show pynorm 2004 1299 = 1299 from by decide,
    show (1299 : Nat) - 1803 = 0 from by decide, List.take_zero]

theorem c3_lastBreak201 : lastBreak c3body (-201) 1299 = -1 := by
  simp only [lastBreak, SEPS, List.foldl_cons, List.foldl_nil, c3_win201]
  rfl

theorem c3_splitEnd201 : splitEnd c3body (-201) = -1 := by
  rw [splitEnd, c3body_length]
  norm_num [MAX_CHUNK_SIZE]
  rw [c3_lastBreak201]
  norm_num

theorem c3_next201 : splitNext c3body (-201) = -201 := by
  rw [splitNext, c3_splitEnd201, c3body_length]
  norm_num [CHUNK_OVERLAP]

theorem c3_lt0 : (0 : Int) < (c3body.length : Int) := by
  rw [c3body_length]
  norm_num

theorem c3_lt196 : (-196 : Int) < (c3body.length : Int) := by
  rw [c3body_length]
  norm_num

theorem c3_lt201 : (-201 : Int) < (c3body.length : Int) := by
  rw [c3body_length]
  norm_num

theorem c3_loop : ∀ n, splitLongGo c3body c3meta n (-201) = none := by
  intro n
  induction n with
  | zero => rfl
  | succ n ih =>
    rw [splitLongGo, if_pos c3_lt201, c3_next201, ih]
    rfl

theorem c3_splitLong : ∀ fuel, splitLongGo c3body c3meta fuel 0 = none
  | 0 => rfl
  | 1 => by
    rw [splitLongGo, if_pos c3_lt0]
    rfl
  | (n + 2) => by
    rw [splitLongGo, if_pos c3_lt0, c3_next0,
      splitLongGo, if_pos c3_lt196, c3_next196, c3_loop n]
    rfl

theorem c3_buildFull : buildFull c3pages =
    (c3body ++ ['\n', '\n'], [(0, 1, "doc.pdf".toList)]) := rfl

/-- C3: `chunk_document` is NOT total — on a single page whose text is
`"ab. "` followed by 2000 `'x'` characters, `_split_long_chunk` never
terminates: the overlap rewind drives the window start to the negative
fixed point `-201`, so the fuel-indexed embedding returns `none` for
every fuel.  This refutes the claim that the splitting loop makes
strict progress on every iteration. -/
theorem chunk_document_nonterminating :
    ∀ fuel : Nat, chunkDocument fuel c3pages = none := by
  intro fuel
  rw [chunkDocument, c3_buildFull]
  dsimp only
  rw [c3_structEmpty,
    if_pos (show (([] : List Chunk)).length < 3 by decide), c3_paras,
    postGo]
  dsimp only
  rw [if_pos (show MAX_CHUNK_SIZE < c3body.length from by
    rw [c3body_length]; decide)]
  rw [show splitLongChunk fuel ⟨c3body, c3meta⟩ = none from
    c3_splitLong fuel]

/-! The window trace of `_split_long_chunk`: the successive
`(start, end, kept)` triples the loop visits, where `kept` records
whether the stripped window text reaches `MIN_CHUNK_SIZE` (only kept
windows emit a sub-chunk). -/

def splitLongWins (text : Str) : Nat → Int → List (Int × Int × Bool)
  | 0, _ => []
  | fuel + 1, start =>
    if start < (text.length : Int) then
      (start, splitEnd text start,
        decide (MIN_CHUNK_SIZE ≤ (splitSub text start).length)) ::
        splitLongWins text fuel (splitNext text start)
    else []

theorem splitLongGo_wins (text : Str) (m : ChunkMeta) :
    ∀ (fuel : Nat) (start : Int) (out : List Chunk),
      splitLongGo text m fuel start = some out →
      out = (splitLongWins text fuel start).filterMap (fun w =>
        if w.2.2 = true then some ⟨splitSub text w.1, metaSub m⟩
        else none) := by
  intro fuel
  induction fuel with
  | zero => intro start out h; cases h
  | succ n ih =>
    intro start out h
    rw [splitLongGo] at h
    rw [splitLongWins]
    by_cases hlt : start < (text.length : Int)
    · rw [if_pos hlt] at h
      rw [if_pos hlt]
      rcases Option.map_eq_some'.mp h with ⟨o2, ho2, hout⟩
      subst hout
      by_cases hk : MIN_CHUNK_SIZE ≤ (splitSub text start).length
      · rw [if_pos hk, decide_eq_true hk,
          ih (splitNext text start) o2 ho2]
        simp [List.filterMap_cons]
      · rw [if_neg hk, decide_eq_false hk,
          ih (splitNext text start) o2 ho2]
        simp [List.filterMap_cons]
    · rw [if_neg hlt] at h
      rw [if_neg hlt]
      injection h with h
      subst h
      simp

theorem splitLongWins_chain (text : Str) :
    ∀ (fuel : Nat) (start : Int),
      (splitLongWins text fuel start).Chain' (fun u v =>
        v.1 = u.2.1 - (CHUNK_OVERLAP : Int) ∧
          u.2.1 < (text.length : Int)) := by
  intro fuel
  induction fuel with
  | zero => intro start; simp [splitLongWins]
  | succ n ih =>
    intro start
    rw [splitLongWins]
    by_cases hlt : start < (text.length : Int)
    · rw [if_pos hlt]
      refine List.chain'_cons'.mpr ⟨?_, ih (splitNext text start)⟩
      intro b hb
      cases n with
      | zero => simp [splitLongWins] at hb
      | succ k =>
        rw [splitLongWins] at hb
        by_cases hn : splitNext text start < (text.length : Int)
        · rw [if_pos hn] at hb
          simp only [List.head?_cons, Option.mem_def,
            Option.some.injEq] at hb
          by_cases he : splitEnd text start < (text.length : Int)
          · constructor
            · rw [← hb]
              show splitNext text start = splitEnd text start - _
              rw [splitNext, if_pos he]
            · exact he
          · exfalso
            have hne : splitNext text start = splitEnd text start := by
              rw [splitNext, if_neg he]
            rw [hne] at hn
            exact he hn
        · rw [if_neg hn] at hb
          simp at hb
    · rw [if_neg hlt]
      simp

/-- C6 (amended): whenever `_split_long_chunk` returns, every emitted
sub-chunk has text length within `[MIN_CHUNK_SIZE, MAX_CHUNK_SIZE]`
and carries the parent metadata with `sub_chunk = true`; the output is
exactly the kept windows of the scan trace (windows whose stripped
text falls below `MIN_CHUNK_SIZE` are silently dropped); and each
consecutive pair of *windows* satisfies `next.start = end -
CHUNK_OVERLAP` — the exact-overlap law holds at window level, not
between consecutive emitted sub-chunks. -/
theorem split_long_chunk_windows (c : Chunk) (fuel : Nat)
    (out : List Chunk) (h : splitLongChunk fuel c = some out) :
    (∀ x ∈ out, x.metadata = metaSub c.metadata ∧
      MIN_CHUNK_SIZE ≤ x.text.length ∧ x.text.length ≤ MAX_CHUNK_SIZE) ∧
    out = (splitLongWins c.text fuel 0).filterMap (fun w =>
      if w.2.2 = true then some ⟨splitSub c.text w.1, metaSub c.metadata⟩
      else none) ∧
    (splitLongWins c.text fuel 0).Chain' (fun u v =>
      v.1 = u.2.1 - (CHUNK_OVERLAP : Int) ∧
        u.2.1 < (c.text.length : Int)) := by
  have hg : splitLongGo c.text c.metadata fuel 0 = some out := h
  refine ⟨?_, splitLongGo_wins c.text c.metadata fuel 0 out hg,
    splitLongWins_chain c.text fuel 0⟩
  intro x hx
  have hb := splitLongGo_bounds c.text c.metadata fuel 0 out
    (by simp only [CHUNK_OVERLAP]; omega) hg x hx
  exact ⟨hb.2, hb.1.1, hb.1.2⟩

/-! Slice and scan toolkit over `replicate`-structured texts. -/

theorem take_replicate_append (a : Char) (n i : Nat) (l : Str) :
    List.take (n + i) (List.replicate n a ++ l) =
      List.replicate n a ++ List.take i l := by
  have h1 : min (n + i) n = n := by omega
  have h2 : n + i - n = i := by omega
  rw [List.take_append_eq_append_take, List.take_replicate,
    List.length_replicate, h1, h2]

theorem drop_replicate_append (a : Char) (n i : Nat) (l : Str) :
    List.drop (n + i) (List.replicate n a ++ l) = List.drop i l := by
  rw [List.drop_append_eq_append_drop, List.drop_replicate,
    List.length_replicate, show n - (n + i) = 0 from by omega,
    show n + i - n = i from by omega, List.replicate_zero,
    List.nil_append]

theorem take_replicate_exact (a : Char) (n : Nat) (l : Str) :
    List.take n (List.replicate n a ++ l) = List.replicate n a :=
  List.take_left' (by simp)

theorem drop_replicate_exact (a : Char) (n : Nat) (l : Str) :
    List.drop n (List.replicate n a ++ l) = l :=
  List.drop_left' (by simp)

theorem dropWhile_ws_replicate :
    ∀ (n : Nat) (l : Str),
      List.dropWhile isWs (List.replicate n ' ' ++ l) =
        List.dropWhile isWs l := by
  intro n
  induction n with
  | zero => intro l; simp
  | succ n ih =>
    intro l
    rw [List.replicate_succ, List.cons_append, List.dropWhile_cons,
      if_pos (show isWs ' ' = true from rfl)]
    exact ih l

theorem dropWhile_repl (p : Char → Bool) (a : Char) (h : p a = false) :
    ∀ n : Nat, List.dropWhile p (List.replicate n a) = List.replicate n a := by
  intro n
  cases n with
  | zero => rfl
  | succ n =>
    rw [List.replicate_succ, List.dropWhile_cons, h]
    rw [if_neg (by simp), ← List.replicate_succ]

theorem dropWhile_repl_head (p : Char → Bool) (a : Char)
    (h : p a = false) (n : Nat) (l : Str) :
    List.dropWhile p (List.replicate (n + 1) a ++ l) =
      List.replicate (n + 1) a ++ l := by
  rw [List.replicate_succ, List.cons_append, List.dropWhile_cons, h]
  rw [if_neg (by simp)]

theorem strip_steps (l m r b res : Str) (h1 : List.dropWhile isWs l = m)
    (h2 : m.reverse = r) (h3 : List.dropWhile isWs r = b)
    (h4 : b.reverse = res) : strip l = res := by
  rw [strip, h1, h2, h3, h4]

theorem strip_replicate_not_ws (a : Char) (h : isWs a = false) (n : Nat) :
    strip (List.replicate n a) = List.replicate n a := by
  rw [strip, dropWhile_repl _ _ h n, List.reverse_replicate,
    dropWhile_repl _ _ h n, List.reverse_replicate]

/-! The C6 counterexample text: 850 `'x'`, 150 spaces, a newline, 499
spaces, a newline, then 899 `'x'` (2400 characters).  The middle
window `[801, 1501)` strips to 49 characters and is dropped, so the
two emitted sub-chunks come from the windows `[0, 1001)` and
`[1301, 2801)`, whose starts are not `end - CHUNK_OVERLAP` apart. -/

def badText : Str :=
  List.replicate 850 'x' ++ (List.replicate 150 ' ' ++ ('\n' ::
    (List.replicate 499 ' ' ++ ('\n' :: List.replicate 899 'x'))))

def c6meta : ChunkMeta :=
  ⟨"T".toList, [], [], [], "titre", 2, "d.pdf".toList, false⟩

theorem badText_length : badText.length = 2400 := by
  simp only [badText, List.length_append, List.length_cons,
    List.length_replicate]

theorem b_win0 : pysliceI badText 0 1500 =
    List.replicate 850 'x' ++ (List.replicate 150 ' ' ++
      ('\n' :: List.replicate 499 ' ')) := by
  rw [pysliceI, badText_length,
    show pynorm 2400 0 = 0 from by decide,
    show pynorm 2400 1500 = 1500 from by decide,
    List.drop_zero, Nat.sub_zero,
    show badText = List.replicate 850 'x' ++ (List.replicate 150 ' ' ++
      ('\n' :: (List.replicate 499 ' ' ++
        ('\n' :: List.replicate 899 'x')))) from rfl,
    show (1500 : Nat) = 850 + 650 from rfl, take_replicate_append,
    show (650 : Nat) = 150 + 500 from rfl, take_replicate_append,
    show (500 : Nat) = 499 + 1 from rfl, List.take_succ_cons,
    take_replicate_exact]

theorem b_win801 : pysliceI badText 801 2301 =
    List.replicate 49 'x' ++ (List.replicate 150 ' ' ++
      ('\n' :: (List.replicate 499 ' ' ++
        ('\n' :: List.replicate 800 'x')))) := by
  rw [pysliceI, badText_length,
    show pynorm 2400 801 = 801 from by decide,
    show pynorm 2400 2301 = 2301 from by decide,
    show (2301 : Nat) - 801 = 1500 from by decide,
    show badText = List.replicate 850 'x' ++ (List.replicate 150 ' ' ++
      ('\n' :: (List.replicate 499 ' ' ++
        ('\n' :: List.replicate 899 'x')))) from rfl,
    show (850 : Nat) = 801 + 49 from rfl, List.replicate_add,
    List.append_assoc, drop_replicate_exact,
    show (1500 : Nat) = 49 + 1451 from rfl, take_replicate_append,
    show (1451 : Nat) = 150 + 1301 from rfl, take_replicate_append,
    show (1301 : Nat) = 1300 + 1 from rfl, List.take_succ_cons,
    show (1300 : Nat) = 499 + 801 from rfl, take_replicate_append,
    show (801 : Nat) = 800 + 1 from rfl, List.take_succ_cons,
    List.take_replicate, show min 800 899 = 800 from by decide]

theorem b_win1301 : pysliceI badText 1301 2801 =
    List.replicate 199 ' ' ++ ('\n' :: List.replicate 899 'x') := by
  rw [pysliceI, badText_length,
    show pynorm 2400 1301 = 1301 from by decide,
    show pynorm 2400 2801 = 2400 from by decide,
    show (2400 : Nat) - 1301 = 1099 from by decide,
    show badText = List.replicate 850 'x' ++ (List.replicate 150 ' ' ++
      ('\n' :: (List.replicate 499 ' ' ++
        ('\n' :: List.replicate 899 'x')))) from rfl,
    show (1301 : Nat) = 850 + 451 from rfl, drop_replicate_append,
    show (451 : Nat) = 150 + 301 from rfl, drop_replicate_append,
    show (301 : Nat) = 300 + 1 from rfl, List.drop_succ_cons,
    show (499 : Nat) = 300 + 199 from rfl, List.replicate_add,
    List.append_assoc, drop_replicate_exact,
    show (1099 : Nat) = 199 + 900 from rfl, take_replicate_append,
    show (900 : Nat) = 899 + 1 from rfl, List.take_succ_cons,
    List.take_replicate, show min 899 899 = 899 from by decide]

theorem b0_find (c0 : Char) (s0 : Str) (h1 : (c0 == 'x') = false)
    (h2 : (c0 == ' ') = false)
    (h3 : List.isPrefixOf (c0 :: s0)
      ('\n' :: List.replicate 499 ' ') = false) :
    findLastIdx (c0 :: s0) (List.replicate 850 'x' ++
      (List.replicate 150 ' ' ++ ('\n' :: List.replicate 499 ' '))) =
      none := by
  rw [findLastIdx, findLastIdxGo_skip _ _ _ h1, findLastIdxGo_skip _ _ _ h2,
    findLastIdxGo_cons_neg _ _ _ _ _ h3, findLastIdxGo_replicate _ _ _ h2]

theorem b0f1 : findLastIdx ['.', ' '] (List.replicate 850 'x' ++
    (List.replicate 150 ' ' ++ ('\n' :: List.replicate 499 ' '))) =
    none := b0_find '.' [' '] (by decide) (by decide) (by decide)

theorem b0f2 : findLastIdx ['.', '\n'] (List.replicate 850 'x' ++
    (List.replicate 150 ' ' ++ ('\n' :: List.replicate 499 ' '))) =
    none := b0_find '.' ['\n'] (by decide) (by decide) (by decide)

theorem b0f3 : findLastIdx [';', '\n'] (List.replicate 850 'x' ++
    (List.replicate 150 ' ' ++ ('\n' :: List.replicate 499 ' '))) =
    none := b0_find ';' ['\n'] (by decide) (by decide) (by decide)

theorem b0f4 : findLastIdx ['\n', '\n'] (List.replicate 850 'x' ++
    (List.replicate 150 ' ' ++ ('\n' :: List.replicate 499 ' '))) =
    none := b0_find '\n' ['\n'] (by decide) (by decide) (by decide)

theorem b0f5 : findLastIdx ['\n'] (List.replicate 850 'x' ++
    (List.replicate 150 ' ' ++ ('\n' :: List.replicate 499 ' '))) =
    some 1000 := by
  rw [findLastIdx, findLastIdxGo_skip _ _ _ (by decide),
    findLastIdxGo_skip _ _ _ (by decide),
    findLastIdxGo_cons_pos _ _ _ _ _ (by decide),
    findLastIdxGo_replicate _ _ _ (by decide)]

theorem b801_find (c0 : Char) (s0 : Str) (h1 : (c0 == 'x') = false)
    (h2 : (c0 == ' ') = false)
    (h3 : List.isPrefixOf (c0 :: s0) ('\n' :: (List.replicate 499 ' ' ++
      ('\n' :: List.replicate 800 'x'))) = false)
    (h4 : List.isPrefixOf (c0 :: s0)
      ('\n' :: List.replicate 800 'x') = false) :
    findLastIdx (c0 :: s0) (List.replicate 49 'x' ++
      (List.replicate 150 ' ' ++ ('\n' :: (List.replicate 499 ' ' ++
        ('\n' :: List.replicate 800 'x'))))) = none := by
  rw [findLastIdx, findLastIdxGo_skip _ _ _ h1, findLastIdxGo_skip _ _ _ h2,
    findLastIdxGo_cons_neg _ _ _ _ _ h3, findLastIdxGo_skip _ _ _ h2,
    findLastIdxGo_cons_neg _ _ _ _ _ h4, findLastIdxGo_replicate _ _ _ h1]

theorem b8f1 : findLastIdx ['.', ' '] (List.replicate 49 'x' ++
    (List.replicate 150 ' ' ++ ('\n' :: (List.replicate 499 ' ' ++
      ('\n' :: List.replicate 800 'x'))))) = none :=
  b801_find '.' [' '] (by decide) (by decide) (by decide) (by decide)

theorem b8f2 : findLastIdx ['.', '\n'] (List.replicate 49 'x' ++
    (List.replicate 150 ' ' ++ ('\n' :: (List.replicate 499 ' ' ++
      ('\n' :: List.replicate 800 'x'))))) = none :=
  b801_find '.' ['\n'] (by decide) (by decide) (by decide) (by decide)

theorem b8f3 : findLastIdx [';', '\n'] (List.replicate 49 'x' ++
    (List.replicate 150 ' ' ++ ('\n' :: (List.replicate 499 ' ' ++
      ('\n' :: List.replicate 800 'x'))))) = none :=
  b801_find ';' ['\n'] (by decide) (by decide) (by decide) (by decide)

theorem b8f4 : findLastIdx ['\n', '\n'] (List.replicate 49 'x' ++
    (List.replicate 150 ' ' ++ ('\n' :: (List.replicate 499 ' ' ++
      ('\n' :: List.replicate 800 'x'))))) = none :=
  b801_find '\n' ['\n'] (by decide) (by decide) (by decide) (by decide)

theorem b8f5 : findLastIdx ['\n'] (List.replicate 49 'x' ++
    (List.replicate 150 ' ' ++ ('\n' :: (List.replicate 499 ' ' ++
      ('\n' :: List.replicate 800 'x'))))) = some 699 := by
  rw [findLastIdx, findLastIdxGo_skip _ _ _ (by decide),
    findLastIdxGo_skip _ _ _ (by decide),
    findLastIdxGo_cons_pos _ _ _ _ _ (by decide),
    findLastIdxGo_skip _ _ _ (by decide),
    findLastIdxGo_cons_pos _ _ _ _ _ (by decide),
    findLastIdxGo_replicate _ _ _ (by decide)]

theorem b_lb0 : lastBreak badText 0 1500 = 1001 := by
  simp only [lastBreak, SEPS, List.foldl_cons, List.foldl_nil, b_win0,
    b0f1, b0f2, b0f3, b0f4, b0f5, badText_length]
  norm_num [pynorm]

theorem b_lb801 : lastBreak badText 801 2301 = 1501 := by
  simp only [lastBreak, SEPS, List.foldl_cons, List.foldl_nil, b_win801,
    b8f1, b8f2, b8f3, b8f4, b8f5, badText_length]
  norm_num [pynorm]

theorem b_end0 : splitEnd badText 0 = 1001 := by
  rw [splitEnd, badText_length]
  norm_num [MAX_CHUNK_SIZE]
  rw [b_lb0]
  norm_num

theorem b_next0 : splitNext badText 0 = 801 := by
  rw [splitNext, b_end0, badText_length]
  norm_num [CHUNK_OVERLAP]

theorem b_end801 : splitEnd badText 801 = 1501 := by
  rw [splitEnd, badText_length]
  norm_num [MAX_CHUNK_SIZE]
  rw [b_lb801]
  norm_num

theorem b_next801 : splitNext badText 801 = 1301 := by
  rw [splitNext, b_end801, badText_length]
  norm_num [CHUNK_OVERLAP]

theorem b_end1301 : splitEnd badText 1301 = 2801 := by
  rw [splitEnd, badText_length]
  norm_num [MAX_CHUNK_SIZE]

theorem b_next1301 : splitNext badText 1301 = 2801 := by
  rw [splitNext, b_end1301, badText_length]
  norm_num [CHUNK_OVERLAP]

theorem b_sub0 : splitSub badText 0 = List.replicate 850 'x' := by
  have hsl : pysliceI badText 0 1001 = List.replicate 850 'x' ++
      (List.replicate 150 ' ' ++ ['\n']) := by
    rw [pysliceI, badText_length,
      show pynorm 2400 0 = 0 from by decide,
      show pynorm 2400 1001 = 1001 from by decide,
      List.drop_zero, Nat.sub_zero,
      show badText = List.replicate 850 'x' ++ (List.replicate 150 ' ' ++
        ('\n' :: (List.replicate 499 ' ' ++
          ('\n' :: List.replicate 899 'x')))) from rfl,
      show (1001 : Nat) = 850 + 151 from rfl, take_replicate_append,
      show (151 : Nat) = 150 + 1 from rfl, take_replicate_append,
      show (1 : Nat) = 0 + 1 from rfl, List.take_succ_cons, List.take_zero]
  rw [splitSub, b_end0, hsl]
  refine strip_steps _
    (List.replicate 850 'x' ++ (List.replicate 150 ' ' ++ ['\n']))
    ('\n' :: (List.replicate 150 ' ' ++ List.replicate 850 'x'))
    (List.replicate 850 'x') _ ?_ ?_ ?_ ?_
  · rw [show (850 : Nat) = 849 + 1 from rfl]
    exact dropWhile_repl_head _ _ (by decide) 849 _
  · simp only [List.reverse_append, List.reverse_replicate,
      List.reverse_cons, List.reverse_nil, List.nil_append,
      List.append_assoc, List.cons_append]
  · rw [List.dropWhile_cons, if_pos (show isWs '\n' = true from rfl),
      dropWhile_ws_replicate]
    exact dropWhile_repl _ _ (by decide) 850
  · simp only [List.reverse_replicate]

theorem b_sub801 : splitSub badText 801 = List.replicate 49 'x' := by
  have hsl : pysliceI badText 801 1501 = List.replicate 49 'x' ++
      (List.replicate 150 ' ' ++ ('\n' :: (List.replicate 499 ' ' ++
        ['\n']))) := by
    rw [pysliceI, badText_length,
      show pynorm 2400 801 = 801 from by decide,
      show pynorm 2400 1501 = 1501 from by decide,
      show (1501 : Nat) - 801 = 700 from by decide,
      show badText = List.replicate 850 'x' ++ (List.replicate 150 ' ' ++
        ('\n' :: (List.replicate 499 ' ' ++
          ('\n' :: List.replicate 899 'x')))) from rfl,
      show (850 : Nat) = 801 + 49 from rfl, List.replicate_add,
      List.append_assoc, drop_replicate_exact,
      show (700 : Nat) = 49 + 651 from rfl, take_replicate_append,
      show (651 : Nat) = 150 + 501 from rfl, take_replicate_append,
      show (501 : Nat) = 500 + 1 from rfl, List.take_succ_cons,
      show (500 : Nat) = 499 + 1 from rfl, take_replicate_append,
      show (1 : Nat) = 0 + 1 from rfl, List.take_succ_cons, List.take_zero]
  rw [splitSub, b_end801, hsl]
  refine strip_steps _
    (List.replicate 49 'x' ++ (List.replicate 150 ' ' ++
      ('\n' :: (List.replicate 499 ' ' ++ ['\n']))))
    ('\n' :: (List.replicate 499 ' ' ++
      ('\n' :: (List.replicate 150 ' ' ++ List.replicate 49 'x'))))
    (List.replicate 49 'x') _ ?_ ?_ ?_ ?_
  · rw [show (49 : Nat) = 48 + 1 from rfl]
    exact dropWhile_repl_head _ _ (by decide) 48 _
  · simp only [List.reverse_append, List.reverse_replicate,
      List.reverse_cons, List.reverse_nil, List.nil_append,
      List.append_assoc, List.cons_append]
  · rw [List.dropWhile_cons, if_pos (show isWs '\n' = true from rfl),
      dropWhile_ws_replicate, List.dropWhile_cons,
      if_pos (show isWs '\n' = true from rfl), dropWhile_ws_replicate]
    exact dropWhile_repl _ _ (by decide) 49
  · simp only [List.reverse_replicate]

theorem b_sub1301 : splitSub badText 1301 = List.replicate 899 'x' := by
  rw [splitSub, b_end1301, b_win1301]
  refine strip_steps _ (List.replicate 899 'x') (List.replicate 899 'x')
    (List.replicate 899 'x') _ ?_ ?_ ?_ ?_
  · rw [dropWhile_ws_replicate, List.dropWhile_cons,
      if_pos (show isWs '\n' = true from rfl)]
    exact dropWhile_repl _ _ (by decide) 899
  · simp only [List.reverse_replicate]
  · exact dropWhile_repl _ _ (by decide) 899
  · simp only [List.reverse_replicate]

theorem b_wins : splitLongWins badText 4 0 =
    [(0, 1001, true), (801, 1501, false), (1301, 2801, true)] := by
  rw [show (4 : Nat) = 3 + 1 from rfl, splitLongWins,
    if_pos (show (0 : Int) < (badText.length : Int) from by
      rw [badText_length]; norm_num),
    b_end0, b_next0, b_sub0,
    show (3 : Nat) = 2 + 1 from rfl, splitLongWins,
    if_pos (show (801 : Int) < (badText.length : Int) from by
      rw [badText_length]; norm_num),
    b_end801, b_next801, b_sub801,
    show (2 : Nat) = 1 + 1 from rfl, splitLongWins,
    if_pos (show (1301 : Int) < (badText.length : Int) from by
      rw [badText_length]; norm_num),
    b_end1301, b_next1301, b_sub1301,
    show (1 : Nat) = 0 + 1 from rfl, splitLongWins,
    if_neg (show ¬ (2801 : Int) < (badText.length : Int) from by
      rw [badText_length]; norm_num)]
  simp only [List.length_replicate]
  decide

theorem b_split : splitLongGo badText c6meta 4 0 = some
    [⟨List.replicate 850 'x', metaSub c6meta⟩,
     ⟨List.replicate 899 'x', metaSub c6meta⟩] := by
  rw [show (4 : Nat) = 3 + 1 from rfl, splitLongGo,
    if_pos (show (0 : Int) < (badText.length : Int) from by
      rw [badText_length]; norm_num),
    b_next0, b_sub0,
    show (3 : Nat) = 2 + 1 from rfl, splitLongGo,
    if_pos (show (801 : Int) < (badText.length : Int) from by
      rw [badText_length]; norm_num),
    b_next801, b_sub801,
    show (2 : Nat) = 1 + 1 from rfl, splitLongGo,
    if_pos (show (1301 : Int) < (badText.length : Int) from by
      rw [badText_length]; norm_num),
    b_next1301, b_sub1301,
    show (1 : Nat) = 0 + 1 from rfl, splitLongGo,
    if_neg (show ¬ (2801 : Int) < (badText.length : Int) from by
      rw [badText_length]; norm_num)]
  simp only [List.length_replicate, Option.map_some']
  rw [if_pos (show MIN_CHUNK_SIZE ≤ 850 from by decide),
    if_neg (show ¬ MIN_CHUNK_SIZE ≤ 49 from by decide),
    if_pos (show MIN_CHUNK_SIZE ≤ 899 from by decide)]
  simp only [List.singleton_append, List.nil_append, List.append_nil]

/-- C6 counterexample: on the 2400-character text above, the long
chunk splitter emits exactly two sub-chunks, coming from the windows
`[0, 1001)` and `[1301, 2801)` (the middle window is dropped for being
below `MIN_CHUNK_SIZE` after stripping), so the pair of consecutive
emitted sub-chunks does NOT overlap by `CHUNK_OVERLAP`: the second
window starts at `1301`, not at `1001 - 200`. -/
theorem split_long_chunk_overlap_gap :
    MAX_CHUNK_SIZE < badText.length ∧
    splitLongChunk 4 ⟨badText, c6meta⟩ = some
      [⟨List.replicate 850 'x', metaSub c6meta⟩,
       ⟨List.replicate 899 'x', metaSub c6meta⟩] ∧
    (splitLongWins badText 4 0).filter (fun w => w.2.2) =
      [(0, 1001, true), (1301, 2801, true)] ∧
    (1301 : Int) ≠ 1001 - (CHUNK_OVERLAP : Int) := by
  refine ⟨by rw [badText_length]; decide, b_split, ?_, by decide⟩
  rw [b_wins]
  decide

/-! The C6 witness: a 1501-character single-run text splits into two
sub-chunks whose windows chain with the exact overlap. -/

def c6zmeta : ChunkMeta :=
  ⟨[], [], [], [], "article", 1, "w.pdf".toList, false⟩

theorem zlen : (List.replicate 1501 'z' : Str).length = 1501 := by
  simp only [List.length_replicate]

theorem z_win0 : pysliceI (List.replicate 1501 'z') 0 1500 =
    List.replicate 1500 'z' := by
  rw [pysliceI, zlen,
    show pynorm 1501 0 = 0 from by decide,
    show pynorm 1501 1500 = 1500 from by decide,
    List.drop_zero, Nat.sub_zero, List.take_replicate,
    show min 1500 1501 = 1500 from by decide]

theorem z_find (c0 : Char) (s0 : Str) (h : (c0 == 'z') = false) :
    findLastIdx (c0 :: s0) (List.replicate 1500 'z') = none := by
  rw [findLastIdx, findLastIdxGo_replicate _ _ _ h]

theorem z_lb0 : lastBreak (List.replicate 1501 'z') 0 1500 = -1 := by
  simp only [lastBreak, SEPS, List.foldl_cons, List.foldl_nil, z_win0]
  rw [z_find '.' [' '] (by decide), z_find '.' ['\n'] (by decide),
    z_find ';' ['\n'] (by decide), z_find '\n' ['\n'] (by decide),
    z_find '\n' [] (by decide)]

theorem z_end0 : splitEnd (List.replicate 1501 'z') 0 = 1500 := by
  rw [splitEnd, zlen]
  norm_num [MAX_CHUNK_SIZE]
  rw [z_lb0]
  norm_num

theorem z_next0 : splitNext (List.replicate 1501 'z') 0 = 1300 := by
  rw [splitNext, z_end0, zlen]
  norm_num [CHUNK_OVERLAP]

theorem z_sub0 : splitSub (List.replicate 1501 'z') 0 =
    List.replicate 1500 'z' := by
  rw [splitSub, z_end0, z_win0, strip_replicate_not_ws _ (by decide)]

theorem z_end1300 : splitEnd (List.replicate 1501 'z') 1300 = 2800 := by
  rw [splitEnd, zlen]
  norm_num [MAX_CHUNK_SIZE]

theorem z_next1300 : splitNext (List.replicate 1501 'z') 1300 = 2800 := by
  rw [splitNext, z_end1300, zlen]
  norm_num

theorem z_sub1300 : splitSub (List.replicate 1501 'z') 1300 =
    List.replicate 201 'z' := by
  rw [splitSub, z_end1300, pysliceI, zlen,
    show pynorm 1501 1300 = 1300 from by decide,
    show pynorm 1501 2800 = 1501 from by decide,
    show (1501 : Nat) - 1300 = 201 from by decide,
    show (1501 : Nat) = 1300 + 201 from rfl, List.replicate_add,
    drop_replicate_exact, List.take_replicate,
    show min 201 201 = 201 from by decide,
    strip_replicate_not_ws _ (by decide)]

theorem z_split : splitLongGo (List.replicate 1501 'z') c6zmeta 3 0 = some
    [⟨List.replicate 1500 'z', metaSub c6zmeta⟩,
     ⟨List.replicate 201 'z', metaSub c6zmeta⟩] := by
  rw [show (3 : Nat) = 2 + 1 from rfl, splitLongGo,
    if_pos (show (0 : Int) <
      ((List.replicate 1501 'z' : Str).length : Int) from by
      rw [zlen]; norm_num),
    z_next0, z_sub0,
    show (2 : Nat) = 1 + 1 from rfl, splitLongGo,
    if_pos (show (1300 : Int) <
      ((List.replicate 1501 'z' : Str).length : Int) from by
      rw [zlen]; norm_num),
    z_next1300, z_sub1300,
    show (1 : Nat) = 0 + 1 from rfl, splitLongGo,
    if_neg (show ¬ (2800 : Int) <
      ((List.replicate 1501 'z' : Str).length : Int) from by
      rw [zlen]; norm_num)]
  simp only [List.length_replicate, Option.map_some']
  rw [if_pos (show MIN_CHUNK_SIZE ≤ 1500 from by decide),
    if_pos (show MIN_CHUNK_SIZE ≤ 201 from by decide)]
  simp only [List.singleton_append, List.nil_append, List.append_nil]

/-- Witness for the amended C6 theorem at a concrete 1501-character
chunk. -/
theorem split_long_chunk_windows_witness :
    splitLongChunk 3 ⟨List.replicate 1501 'z', c6zmeta⟩ = some
      [⟨List.replicate 1500 'z', metaSub c6zmeta⟩,
       ⟨List.replicate 201 'z', metaSub c6zmeta⟩] ∧
    ((∀ x ∈ [(⟨List.replicate 1500 'z', metaSub c6zmeta⟩ : Chunk),
        ⟨List.replicate 201 'z', metaSub c6zmeta⟩],
        x.metadata = metaSub c6zmeta ∧ MIN_CHUNK_SIZE ≤ x.text.length ∧
          x.text.length ≤ MAX_CHUNK_SIZE) ∧
      [(⟨List.replicate 1500 'z', metaSub c6zmeta⟩ : Chunk),
        ⟨List.replicate 201 'z', metaSub c6zmeta⟩] =
        (splitLongWins (List.replicate 1501 'z') 3 0).filterMap (fun w =>
          if w.2.2 = true then
            some ⟨splitSub (List.replicate 1501 'z') w.1, metaSub c6zmeta⟩
          else none) ∧
      (splitLongWins (List.replicate 1501 'z') 3 0).Chain' (fun u v =>
        v.1 = u.2.1 - (CHUNK_OVERLAP : Int) ∧
          u.2.1 < (((List.replicate 1501 'z' : Str)).length : Int))) := by
  have h : splitLongChunk 3 ⟨List.replicate 1501 'z', c6zmeta⟩ = some
      [⟨List.replicate 1500 'z', metaSub c6zmeta⟩,
       ⟨List.replicate 201 'z', metaSub c6zmeta⟩] := z_split
  exact ⟨h, split_long_chunk_windows
    ⟨List.replicate 1501 'z', c6zmeta⟩ 3 _ h⟩

end LexiBot
